import Mathlib

/-!
# tsc: a user-space clock derived from the CPU cycle counter

A verification development for the Go package `tsc` (files `tsc.go`, `tsc_amd64.go`).

Conventions of the embedding:

* a Go `int64` is an `Int`; every `int64` operation that can overflow is followed by
  `wrap64`, the reduction into `[-2^63, 2^63)` (two's complement);
* a Go `int` used as a slice index is a `Nat` (every index expression of the program is
  non-negative by construction, see `getClosestTSCSys`);
* a Go slice is a `List`, an access `s[i]` is `s[i]?` and a panic (index out of range) is
  `none`;
* a Go `float64` is its IEEE-754 binary64 bit pattern (`Float64`);
* the readings of the hardware counter and of the kernel clock, the CPU feature bits and the
  content of the clock-source file are inputs of the functions that consume them.
-/

namespace Tsc

/-! ## Machine integers -/

/-- The value `math.MaxInt64`. -/
def MaxInt64 : Int := 9223372036854775807

/-- Reduction of an integer into the `int64` range `[-2^63, 2^63)`, the result of an
overflowing two's-complement operation. -/
def wrap64 (x : Int) : Int :=
  (x + 9223372036854775808) % 18446744073709551616 - 9223372036854775808

/-- The unsigned 64-bit pattern of an `int64`. -/
def toBits64 (x : Int) : Nat := (x % 18446744073709551616).toNat

/-- The `int64` held by an unsigned 64-bit pattern. -/
def ofBits64 (b : Nat) : Int := wrap64 (b : Int)

/-- Go `isEven(n int) bool { return n&1 == 0 }`; `&` on a negative `int` is the
two's-complement conjunction, which is `Int.land`. -/
def isEven (n : Int) : Bool := Int.land n 1 == 0

/-! ## The paired-sample picker `getClosestTSCSys` -/

/-- The timeline `[tscClock, wc, tscClock, wc, ..., tscClock]` of `getClosestTSCSys(n)` after
its fill loop: `n+n+1` slots, slot `i` holding the `i`-th reading `clk i` taken by the function
(`RDTSC()` for even `i`, `time.Now().UnixNano()` for odd `i`). -/
def fillTimeline (n : Nat) (clk : Nat → Int) : List Int :=
  (List.range (n + n + 1)).map clk

/-- The variables that the scan of `getClosestTSCSys` mutates: the outer loop variable `i`,
`last`, `minDelta` and `minIndex`. -/
structure Scan where
  i : Nat
  last : Int
  minDelta : Int
  minIndex : Nat
deriving DecidableEq, Repr

/-- The middle index computed at a transition:
`mid := (i + j - 2) >> 1; if isEven(mid) { mid++ }`. -/
def midIndex (i j : Nat) : Nat :=
  let mid := (i + j - 2) >>> 1
  if isEven (mid : Int) then mid + 1 else mid

/-- The body of the inner loop of `getClosestTSCSys` at index `j`. -/
def innerBody (timeline : List Int) (j : Nat) (s : Scan) : Option Scan := do
  let tj ← timeline[j]?
  if tj ≠ s.last then
    let mid := midIndex s.i j
    let hi ← timeline[mid + 1]?
    let lo ← timeline[mid - 1]?
    let delta := wrap64 (hi - lo)
    let s1 : Scan :=
      if delta < s.minDelta then { s with minDelta := delta, minIndex := mid } else s
    some { s1 with i := j, last := tj }
  else
    some s

/-- The inner loop `for j := ...; j < len(timeline)-1; j += 2 { ... }`, entered at `j`.
`fuel` bounds the number of iterations; `none` is a panic or exhausted fuel. -/
def innerLoop (timeline : List Int) : Nat → Nat → Scan → Option Scan
  | 0, j, s => if j < timeline.length - 1 then none else some s
  | fuel + 1, j, s =>
    if j < timeline.length - 1 then
      (innerBody timeline j s).bind (innerLoop timeline fuel (j + 2))
    else some s

/-- The outer loop `for i := ...; i < len(timeline)-1; i += 2 { ... }`, entered at `i` with
the current `minDelta` and `minIndex`; the inner loop may have advanced `i` before `i += 2`. -/
def outerLoop (timeline : List Int) : Nat → Nat → Int → Nat → Option (Int × Nat)
  | 0, i, minDelta, minIndex =>
    if i < timeline.length - 1 then none else some (minDelta, minIndex)
  | fuel + 1, i, minDelta, minIndex =>
    if i < timeline.length - 1 then
      (timeline[i]?).bind fun last =>
      (innerLoop timeline timeline.length (i + 2)
          { i := i, last := last, minDelta := minDelta, minIndex := minIndex }).bind fun s =>
      outerLoop timeline fuel (s.i + 2) s.minDelta s.minIndex
    else some (minDelta, minIndex)

/-- The pair returned for `minIndex`:
`((timeline[minIndex+1] + timeline[minIndex-1]) >> 1, timeline[minIndex])`. -/
def pairAt (timeline : List Int) (minIndex : Nat) : Option (Int × Int) := do
  let hi ← timeline[minIndex + 1]?
  let lo ← timeline[minIndex - 1]?
  let sys ← timeline[minIndex]?
  some (wrap64 (hi + lo) >>> (1 : Nat), sys)

/-- The scan of `getClosestTSCSys` over a filled timeline: `minDelta := math.MaxInt64`,
`minIndex := 1`, the two nested loops, and the final pair. -/
def scanTimeline (timeline : List Int) : Option (Int × Int) :=
  (outerLoop timeline timeline.length 1 MaxInt64 1).bind fun r => pairAt timeline r.2

/-- Go `getClosestTSCSys(n int) (int64, int64)`, as a function of the readings `clk` it takes. -/
def getClosestTSCSys (n : Nat) (clk : Nat → Int) : Option (Int × Int) :=
  scanTimeline (fillTimeline n clk)

/-! ## float64

A `float64` is modelled by its IEEE-754 binary64 bit pattern: bit 63 is the sign, bits 52..62
the biased exponent, bits 0..51 the fraction.  Arithmetic is exact rational arithmetic on the
values followed by rounding to nearest, ties to even, one rounding per operation (the amd64
compiler does not fuse a multiplication with an addition).  Every NaN result is the one quiet
NaN `Float64.nan` (payloads are not tracked). -/

/-- A Go `float64`, as its 64-bit pattern. -/
structure Float64 where
  bits : Nat
deriving DecidableEq, Repr

namespace Float64

/-- Sign bit (bit 63). -/
def signBit (x : Float64) : Bool := x.bits / 9223372036854775808 % 2 == 1

/-- Biased exponent (bits 52..62). -/
def expField (x : Float64) : Nat := x.bits / 4503599627370496 % 2048

/-- Fraction (bits 0..51). -/
def fracField (x : Float64) : Nat := x.bits % 4503599627370496

/-- Not-a-number test. -/
def isNaN (x : Float64) : Bool := x.expField == 2047 && x.fracField != 0

/-- Infinity test. -/
def isInf (x : Float64) : Bool := x.expField == 2047 && x.fracField == 0

/-- Absolute value of a finite pattern (subnormal, or normal with the hidden bit). -/
def mag (x : Float64) : ℚ :=
  if x.expField = 0 then (x.fracField : ℚ) / (2 : ℚ) ^ 1074
  else if 1075 ≤ x.expField then
    ((4503599627370496 + x.fracField : Nat) : ℚ) * (2 : ℚ) ^ (x.expField - 1075)
  else ((4503599627370496 + x.fracField : Nat) : ℚ) / (2 : ℚ) ^ (1075 - x.expField)

/-- Value of a finite pattern. -/
def toRat (x : Float64) : ℚ := if x.signBit then - x.mag else x.mag

/-- The quiet NaN that stands for every NaN result. -/
def nan : Float64 := ⟨0x7FF8000000000000⟩

/-- Signed infinity. -/
def inf (neg : Bool) : Float64 :=
  ⟨(if neg then 9223372036854775808 else 0) + 2047 * 4503599627370496⟩

/-- Signed zero. -/
def zero (neg : Bool) : Float64 := ⟨if neg then 9223372036854775808 else 0⟩

/-- The constant `1.0`. -/
def one : Float64 := ⟨0x3FF0000000000000⟩

/-- The integer `e` with `2^e ≤ p/q < 2^(e+1)`, for positive `p` and `q`. -/
def ilog2 (p q : Nat) : Int :=
  let e0 : Int := (Nat.log2 p : Int) - (Nat.log2 q : Int)
  if p * 2 ^ (-e0).toNat < q * 2 ^ e0.toNat then e0 - 1 else e0

/-- The integer nearest to `N/D`, ties to the even one. -/
def roundHalfEven (N D : Nat) : Nat :=
  let f := N / D
  let r := N % D
  if 2 * r < D then f else if D < 2 * r then f + 1 else if f % 2 = 0 then f else f + 1

/-- Rounding of the rational `± p/q` to binary64 (nearest, ties to even; overflow gives an
infinity, tiny values round to subnormals or zero). -/
def ofMag (neg : Bool) (p q : Nat) : Float64 :=
  let s : Nat := if neg then 9223372036854775808 else 0
  if p = 0 then ⟨s⟩ else
    let e : Int := max (ilog2 p q) (-1022)
    let sh : Int := e - 52
    let m : Nat := roundHalfEven (p * 2 ^ (-sh).toNat) (q * 2 ^ sh.toNat)
    let b : Nat := (e + 1022).toNat * 4503599627370496 + m
    if 2047 * 4503599627370496 ≤ b then ⟨s + 2047 * 4503599627370496⟩ else ⟨s + b⟩

/-- Rounding of a rational to binary64; zero is `+0`. -/
def ofRat (q : ℚ) : Float64 := ofMag (decide (q < 0)) q.num.natAbs q.den

/-- Go `float64(z)` for an integer `z`. -/
def ofInt (z : Int) : Float64 := ofMag (decide (z < 0)) z.natAbs 1

/-- Negation: the sign bit flipped. -/
def neg (x : Float64) : Float64 :=
  if x.signBit then ⟨x.bits - 9223372036854775808⟩ else ⟨x.bits + 9223372036854775808⟩

/-- Go `a + b` on `float64`. -/
def add (a b : Float64) : Float64 :=
  if a.isNaN || b.isNaN then nan
  else if a.isInf then (if b.isInf && (a.signBit != b.signBit) then nan else a)
  else if b.isInf then b
  else
    let r := a.toRat + b.toRat
    if r = 0 then zero (a.signBit && b.signBit) else ofRat r

/-- Go `a - b` on `float64`. -/
def sub (a b : Float64) : Float64 := add a (neg b)

/-- Go `a * b` on `float64`. -/
def mul (a b : Float64) : Float64 :=
  let s := a.signBit != b.signBit
  if a.isNaN || b.isNaN then nan
  else if a.isInf then (if b.mag = 0 then nan else inf s)
  else if b.isInf then (if a.mag = 0 then nan else inf s)
  else
    let r := a.mag * b.mag
    ofMag s r.num.natAbs r.den

/-- Go `a / b` on `float64`. -/
def div (a b : Float64) : Float64 :=
  let s := a.signBit != b.signBit
  if a.isNaN || b.isNaN then nan
  else if a.isInf then (if b.isInf then nan else inf s)
  else if b.isInf then zero s
  else if b.mag = 0 then (if a.mag = 0 then nan else inf s)
  else
    let r := a.mag / b.mag
    ofMag s r.num.natAbs r.den

/-- Go `int64(x)` for a `float64` `x` on amd64 (`CVTTSD2SQ`): truncation toward zero; a NaN,
an infinity or a value outside the `int64` range gives `-2^63`. -/
def toInt64 (x : Float64) : Int :=
  if x.expField = 2047 then -9223372036854775808
  else
    let t := Int.tdiv x.toRat.num x.toRat.den
    if -9223372036854775808 ≤ t ∧ t < 9223372036854775808 then t else -9223372036854775808

end Float64

instance : Zero Float64 := ⟨Float64.zero false⟩
instance : Add Float64 := ⟨Float64.add⟩
instance : Sub Float64 := ⟨Float64.sub⟩
instance : Mul Float64 := ⟨Float64.mul⟩
instance : Div Float64 := ⟨Float64.div⟩

/-- The two conversions between integers and floating-point numbers that the package uses:
`float64(n)` and `int64(x)`. -/
class Float64Conv (F : Type) where
  ofInt : Int → F
  toInt64 : F → Int

instance : Float64Conv Float64 := ⟨Float64.ofInt, Float64.toInt64⟩

/-- Truncation toward zero of a rational, the value of Go's `int64(x)` when it is in range. -/
def truncRat (q : ℚ) : Int := Int.tdiv q.num q.den

/-- Exact arithmetic: the rationals with `float64(n) = n` and `int64(x)` the truncation of `x`
toward zero (`-2^63` outside the `int64` range, as on amd64). -/
instance : Float64Conv ℚ :=
  ⟨fun z => (z : ℚ), fun q =>
    if -9223372036854775808 ≤ truncRat q ∧ truncRat q < 9223372036854775808 then truncRat q
    else -9223372036854775808⟩

/-! ## Linear regression `simpleLinearRegression` -/

section Regression

variable {F : Type} [Zero F] [Add F] [Sub F] [Mul F] [Div F] [Float64Conv F]

/-- The loops `for _, i := range xs { mean += i }`, entered with `mean = acc`. -/
def sumLoop (acc : F) (xs : List F) : F := xs.foldl (fun m i => m + i) acc

/-- The loop `for i := range tscs { numerator += ...; denominator += ... }` on the remaining
elements, entered with `(numerator, denominator) = acc`; `syss[i]` panics when `syss` is
shorter than `tscs`. -/
def momentLoop (tmean wmean : F) : List F → List F → F × F → Option (F × F)
  | [], _, acc => some acc
  | _ :: _, [], _ => none
  | t :: ts, w :: ws, acc =>
    momentLoop tmean wmean ts ws
      (acc.1 + (t - tmean) * (w - wmean), acc.2 + (t - tmean) * (t - tmean))

/-- Go `simpleLinearRegression(tscs, syss []float64) (float64, int64)`. -/
def simpleLinearRegression (tscs syss : List F) : Option (F × Int) :=
  let tmean := sumLoop (0 : F) tscs
  let wmean := sumLoop (0 : F) syss
  let tmean := tmean / Float64Conv.ofInt (tscs.length : Int)
  let wmean := wmean / Float64Conv.ofInt (syss.length : Int)
  (momentLoop tmean wmean tscs syss (0, 0)).map fun acc =>
    let coeff := acc.1 / acc.2
    (coeff, Float64Conv.toInt64 (wmean - coeff * tmean))

end Regression

/-! ## Library state -/

/-- The functions that the variable `UnixNano` can hold. -/
inductive Clock where
  | sysClock
  | unixNanoTSC16B
  | unixNanoTSCFMA
  | unixNanoTSC16Bfence
deriving DecidableEq, Repr

/-- The first 16 bytes of a parameter block, as two 64-bit lanes: "Coefficient is in [0,64)
bits. Offset is in [64, 128) bits." -/
structure Block where
  coeffLane : Nat
  offsetLane : Nat
deriving DecidableEq, Repr

/-- The package-level variables. -/
structure State where
  supported : Int
  allowOutOfOrder : Int
  UnixNano : Clock
  OffsetCoeff : Block
  OffsetCoeffF : Block
deriving DecidableEq, Repr

/-- The package-level variables as initialised by their declarations, before `init()`. -/
def initialState : State :=
  { supported := 0, allowOutOfOrder := 1, UnixNano := Clock.sysClock,
    OffsetCoeff := ⟨0, 0⟩, OffsetCoeffF := ⟨0, 0⟩ }

/-- Modelled from the spec: the assembly routine `storeOffsetCoeff(dst, offset, coeff)` is not
among the sources; it "atomically writes 16 bytes", the coefficient into bits [0,64) and the
offset into bits [64,128). -/
def storeOffsetCoeff (_dst : Block) (offset : Int) (coeff : Float64) : Block :=
  { coeffLane := coeff.bits % 18446744073709551616, offsetLane := toBits64 offset }

/-- Modelled from the spec: the assembly routine `storeOffsetFCoeff(dst, offset, coeff)` is not
among the sources; it is the store of `storeOffsetCoeff` with a `float64` offset. -/
def storeOffsetFCoeff (_dst : Block) (offset coeff : Float64) : Block :=
  { coeffLane := coeff.bits % 18446744073709551616,
    offsetLane := offset.bits % 18446744073709551616 }

/-- Modelled from the spec: the assembly routine `LoadOffsetCoeff(src)` is not among the
sources; it "atomically reads 16 bytes" and returns them as `(offset int64, coeff float64)`. -/
def LoadOffsetCoeff (src : Block) : Int × Float64 :=
  (ofBits64 src.offsetLane, ⟨src.coeffLane⟩)

/-- Go `Supported()`. -/
def Supported (st : State) : Bool := st.supported == 1

/-- Go `IsOutOfOrder()`. -/
def IsOutOfOrder (st : State) : Bool := st.allowOutOfOrder == 1

/-! ## Capability probe (amd64) -/

/-- The feature bits of `cpu.X86` that the package reads. -/
structure X86 where
  HasInvariantTSC : Bool
  HasAVX : Bool
  HasFMA : Bool
deriving DecidableEq, Repr

/-- The outcome of `os.Open` followed by `io.ReadAll` on the clock-source file. -/
inductive FileRead where
  | openError
  | readError
  | data (d : String)
deriving DecidableEq, Repr

/-- What the package observes of the machine it runs on. -/
structure Host where
  X86 : X86
  GOOS : String
  clocksource : FileRead
deriving DecidableEq, Repr

/-- Go `strings.TrimRight(s, "\n")`. -/
def trimRightNewline (s : String) : String :=
  ⟨(s.data.reverse.dropWhile (fun c => c == '\n')).reverse⟩

/-- Go `GetCurrentClockSource()`. -/
def GetCurrentClockSource (h : Host) : String :=
  if h.GOOS ≠ "linux" then ""
  else
    match h.clocksource with
    | FileRead.openError => ""
    | FileRead.readError => ""
    | FileRead.data d => trimRightNewline d

/-- Go `isHardwareSupported()` of `tsc_amd64.go`: the answer and the state it leaves. -/
def isHardwareSupported (h : Host) (st : State) : Bool × State :=
  if st.supported = 1 then (true, st)
  else if !h.X86.HasInvariantTSC && GetCurrentClockSource h != "tsc" then (false, st)
  else if !h.X86.HasAVX then (false, st)
  else (true, { st with supported := 1 })

/-! ## Calibration and mode switch (amd64) -/

/-- The constant `samples`. -/
def samples : Nat := 128

/-- The constant `getClosestTSCSysRetries`. -/
def getClosestTSCSysRetries : Nat := 256

/-- The sampling loop `for j := range cnt { ... }` of `Calibrate`, with `cnt` iterations left
from index `j`; `reads k` are the readings taken by the `k`-th call of `getClosestTSCSys`.
Returns the slices `tscs` and `syss` from position `2*j` on. -/
def sampleLoop (reads : Nat → Nat → Int) : Nat → Nat → Option (List Float64 × List Float64)
  | 0, _ => some ([], [])
  | cnt + 1, j =>
    (getClosestTSCSys getClosestTSCSysRetries (reads (2 * j))).bind fun p0 =>
    (getClosestTSCSys getClosestTSCSysRetries (reads (2 * j + 1))).bind fun p1 =>
    (sampleLoop reads cnt (j + 1)).map fun r =>
      (Float64.ofInt p0.1 :: Float64.ofInt p1.1 :: r.1,
       Float64.ofInt p0.2 :: Float64.ofInt p1.2 :: r.2)

/-- Go `Calibrate()` of `tsc_amd64.go`. -/
def Calibrate (h : Host) (reads : Nat → Nat → Int) (st : State) : Option State :=
  let probe := isHardwareSupported h st
  if !probe.1 then some probe.2
  else
    (sampleLoop reads samples 0).bind fun r =>
    (simpleLinearRegression r.1 r.2).map fun fit =>
      { probe.2 with
        OffsetCoeff := storeOffsetCoeff probe.2.OffsetCoeff fit.2 fit.1,
        OffsetCoeffF := storeOffsetFCoeff probe.2.OffsetCoeffF (Float64.ofInt fit.2) fit.1 }

/-- Go `CalibrateWithCoeff(coeff)` of `tsc_amd64.go`; `clk` are the readings taken by its call
of `getClosestTSCSys`. -/
def CalibrateWithCoeff (coeff : Float64) (clk : Nat → Int) (st : State) : Option State :=
  if !Supported st then some st
  else
    (getClosestTSCSys getClosestTSCSysRetries clk).map fun p =>
      let off := wrap64 (p.2 - Float64.toInt64 (Float64.ofInt p.1 * coeff))
      { st with
        OffsetCoeff := storeOffsetCoeff st.OffsetCoeff off coeff,
        OffsetCoeffF := storeOffsetFCoeff st.OffsetCoeffF (Float64.ofInt off) coeff }

/-- The choice of `reset()` when out-of-order reads are allowed; `inOrder k` is the `k`-th
reading of `GetInOrder()`.  The 1000 calls of each hot-path variant between two readings
write no package variable. -/
def chooseUnfenced (h : Host) (inOrder : Nat → Int) (st : State) : State :=
  let st1 : State :=
    if h.X86.HasFMA then
      let start := inOrder 0
      let fmaCost := wrap64 (inOrder 1 - start)
      let start := inOrder 2
      let tscCost := wrap64 (inOrder 3 - start)
      if fmaCost < tscCost then { st with UnixNano := Clock.unixNanoTSCFMA } else st
    else st
  { st1 with UnixNano := Clock.unixNanoTSC16B }

/-- Go `reset()` of `tsc_amd64.go`: the returned flag and the state it leaves. -/
def reset (h : Host) (reads : Nat → Nat → Int) (inOrder : Nat → Int) (st : State) :
    Option (Bool × State) :=
  let probe := isHardwareSupported h st
  if !probe.1 then some (false, probe.2)
  else
    (Calibrate h reads probe.2).map fun st1 =>
      if IsOutOfOrder st1 then (true, chooseUnfenced h inOrder st1)
      else (true, { st1 with UnixNano := Clock.unixNanoTSC16Bfence })

/-- Go `AllowOutOfOrder()`. -/
def AllowOutOfOrder (h : Host) (reads : Nat → Nat → Int) (inOrder : Nat → Int) (st : State) :
    Option State :=
  if !Supported st then some st
  else (reset h reads inOrder { st with allowOutOfOrder := 1 }).map fun r => r.2

/-- Go `ForbidOutOfOrder()`. -/
def ForbidOutOfOrder (h : Host) (reads : Nat → Nat → Int) (inOrder : Nat → Int) (st : State) :
    Option State :=
  if !Supported st then some st
  else (reset h reads inOrder { st with allowOutOfOrder := 0 }).map fun r => r.2

/-! ## One-pass description of the picker -/

/-- The bracket width of a middle index: `timeline[mid+1] - timeline[mid-1]` in `int64`. -/
def bracketWidth (timeline : List Int) (mid : Nat) : Int :=
  wrap64 (timeline.getD (mid + 1) 0 - timeline.getD (mid - 1) 0)

/-- One walk over the system-clock slots `js` with the current run of equal values starting
at slot `i`: each slot whose value differs from the run's value is a transition, yields the
middle index of the run it closes and starts the next run. -/
def candidatesAux (timeline : List Int) : Nat → List Nat → List Nat
  | _, [] => []
  | i, j :: js =>
    if timeline.getD j 0 ≠ timeline.getD i 0 then midIndex i j :: candidatesAux timeline j js
    else candidatesAux timeline i js

/-- The candidate middle indices of a timeline, one per transition, in scan order: the walk
starts with the run at slot 1 and visits the slots `3, 5, ..., len - 2`. -/
def candidates (timeline : List Int) : List Nat :=
  candidatesAux timeline 1 (List.range' 3 ((timeline.length - 3) / 2) 2)

/-- The update `if delta < minDelta { minDelta = delta; minIndex = mid }` on the pair
`(minDelta, minIndex)`. -/
def keepMin (timeline : List Int) (acc : Int × Nat) (mid : Nat) : Int × Nat :=
  if bracketWidth timeline mid < acc.1 then (bracketWidth timeline mid, mid) else acc

/-! ## Concrete machines and readings -/

/-- A machine that advertises invariant TSC, AVX and FMA. -/
def hostFMA : Host :=
  { X86 := { HasInvariantTSC := true, HasAVX := true, HasFMA := true },
    GOOS := "linux", clocksource := FileRead.data "tsc\n" }

/-- A machine that advertises invariant TSC but neither AVX nor FMA. -/
def hostNoAVX : Host :=
  { X86 := { HasInvariantTSC := true, HasAVX := false, HasFMA := false },
    GOOS := "linux", clocksource := FileRead.data "tsc\n" }

/-- A virtual machine: the invariant-TSC bit is masked, the kernel clock source is the TSC. -/
def hostVM : Host :=
  { X86 := { HasInvariantTSC := false, HasAVX := true, HasFMA := false },
    GOOS := "linux", clocksource := FileRead.data "tsc\n" }

/-- A machine without invariant TSC whose kernel clock source is the HPET. -/
def hostHPET : Host :=
  { X86 := { HasInvariantTSC := false, HasAVX := true, HasFMA := true },
    GOOS := "linux", clocksource := FileRead.data "hpet\n" }

/-- Readings of the calls of `getClosestTSCSys`: call `k` reads `1000000 * k + 10 * i` into
slot `i`. -/
def steadyReads : Nat → Nat → Int := fun k i => 1000000 * (k : Int) + 10 * (i : Int)

/-- Readings of `GetInOrder()` in `reset`: the 1000 FMA calls take 10 ticks, the 1000 non-FMA
calls take 20 ticks. -/
def fmaFasterReadings : Nat → Int := fun k => [0, 10, 10, 30].getD k 0

/-- The state after a successful `init()` would have `supported = 1`; this one is the initial
state with the flag set. -/
def supportedState : State := { initialState with supported := 1 }

/-- Readings of one call `getClosestTSCSys(3)`: system clock `7, 7, 8`, and a counter that
jumps from `0` to `math.MaxInt64` around the second system-clock reading. -/
def saturatedReads : Nat → Int :=
  fun i => [0, 7, 0, 7, 9223372036854775807, 8, 9223372036854775807].getD i 0

/-- Readings of one call `getClosestTSCSys(5)`: system clock `7, 7, 8, 8, 9` and counters
`0, 10, 30, 31, 35, 36`; the two transitions have the candidates 3 (width 20) and 7
(width 4). -/
def jitterReads : Nat → Int :=
  fun i => [0, 7, 10, 7, 30, 8, 31, 8, 35, 9, 36].getD i 0

/-- Readings of one call `getClosestTSCSys(2)` with a system clock that does not advance:
system clock `7, 7` and counters `0, 10, 20`. -/
def flatReads : Nat → Int :=
  fun i => [0, 7, 10, 7, 20].getD i 0

/-! ## Ordinary least squares, as the specification words it -/

/-- The arithmetic mean of a sample list. -/
def mean (xs : List ℚ) : ℚ := xs.sum / (xs.length : ℚ)

/-- The sum `Σ (counter_i − mean_counter)(sys_i − mean_sys)`. -/
def covSum (counters sys : List ℚ) : ℚ :=
  (List.zipWith (fun t w => (t - mean counters) * (w - mean sys)) counters sys).sum

/-- The sum `Σ (counter_i − mean_counter)²`. -/
def sqSum (counters : List ℚ) : ℚ :=
  (counters.map (fun t => (t - mean counters) * (t - mean counters))).sum

/-- The least-squares slope of `sys` on `counter`. -/
def olsSlope (counters sys : List ℚ) : ℚ := covSum counters sys / sqSum counters

/-- The least-squares intercept `mean_sys − slope · mean_counter`. -/
def olsIntercept (counters sys : List ℚ) : ℚ :=
  mean sys - olsSlope counters sys * mean counters

/-- The constant `-1.0`. -/
def Float64.negOne : Float64 := ⟨0xBFF0000000000000⟩

/-! ## Transitions and the one-pass scan -/

/-- The transitions met by the walk of `candidatesAux`: the pairs `(i, j)` of the start `i` of
the current run and the first slot `j` after it whose value differs. -/
def transitionsAux (timeline : List Int) : Nat → List Nat → List (Nat × Nat)
  | _, [] => []
  | i, j :: js =>
    if timeline.getD j 0 ≠ timeline.getD i 0 then (i, j) :: transitionsAux timeline j js
    else transitionsAux timeline i js

/-- The transitions of a timeline in scan order: the walk starts with the run at slot 1 and
visits the slots `3, 5, ..., len - 2`. -/
def transitions (timeline : List Int) : List (Nat × Nat) :=
  transitionsAux timeline 1 (List.range' 3 ((timeline.length - 3) / 2) 2)

/-- The one-pass scan: a single walk over the odd slots that evaluates one candidate per
transition and keeps the first of least bracket width, from `minDelta = math.MaxInt64` and
`minIndex = 1`. -/
def onePassScan (timeline : List Int) : Int × Nat :=
  (candidates timeline).foldl (keepMin timeline) (MaxInt64, 1)

/-- Readings of one call `getClosestTSCSys(1)` whose two counter readings are both `2^62`, so
that their sum is `2^63`. -/
def wrapReads : Nat → Int :=
  fun i => [4611686018427387904, 7, 4611686018427387904].getD i 0

/-! ## Lemmas on the picker -/

theorem isEven_natCast (m : Nat) : isEven (m : Int) = decide (m % 2 = 0) := by
  unfold isEven
  have h : Int.land (m : Int) 1 = ((m &&& 1 : Nat) : Int) := rfl
  rw [h, Nat.and_one_is_mod]
  rcases Nat.mod_two_eq_zero_or_one m with h0 | h1
  · simp [h0]
  · simp [h1]

theorem midIndex_spec (i j : Nat) (hi : i % 2 = 1) (hj : j % 2 = 1) (hij : i + 2 ≤ j) :
    midIndex i j % 2 = 1 ∧ i ≤ midIndex i j ∧ midIndex i j + 2 ≤ j := by
  unfold midIndex
  simp only [isEven_natCast, Nat.shiftRight_eq_div_pow, pow_one, decide_eq_true_eq]
  split <;> omega

theorem fillTimeline_length (n : Nat) (clk : Nat → Int) :
    (fillTimeline n clk).length = n + n + 1 := by
  simp [fillTimeline]

theorem fillTimeline_getElem? (n : Nat) (clk : Nat → Int) (i : Nat) (h : i < n + n + 1) :
    (fillTimeline n clk)[i]? = some (clk i) := by
  simp [fillTimeline, List.getElem?_range h]

theorem fillTimeline_getD (n : Nat) (clk : Nat → Int) (i : Nat) (h : i < n + n + 1) :
    (fillTimeline n clk).getD i 0 = clk i := by
  simp [List.getD, fillTimeline_getElem? n clk i h]

theorem innerLoop_done (tl : List Int) (fuel j : Nat) (s : Scan)
    (h : ¬ j < tl.length - 1) : innerLoop tl fuel j s = some s := by
  cases fuel <;> simp [innerLoop, h]

theorem outerLoop_done (tl : List Int) (fuel i : Nat) (d : Int) (m : Nat)
    (h : ¬ i < tl.length - 1) : outerLoop tl fuel i d m = some (d, m) := by
  cases fuel <;> simp [outerLoop, h]

/-- The inner-loop body on a filled timeline, in closed form. -/
theorem innerBody_fill (n : Nat) (clk : Nat → Int) (j : Nat) (s : Scan)
    (hj : j < n + n) (hjo : j % 2 = 1) (hio : s.i % 2 = 1) (hij : s.i + 2 ≤ j) :
    innerBody (fillTimeline n clk) j s =
      some (if clk j ≠ s.last then
        { i := j, last := clk j,
          minDelta := (keepMin (fillTimeline n clk) (s.minDelta, s.minIndex) (midIndex s.i j)).1,
          minIndex := (keepMin (fillTimeline n clk) (s.minDelta, s.minIndex) (midIndex s.i j)).2 }
        else s) := by
  obtain ⟨_, h2, h3⟩ := midIndex_spec s.i j hio hjo hij
  unfold innerBody
  rw [fillTimeline_getElem? n clk j (by omega)]
  by_cases hne : clk j = s.last
  · simp [hne]
  · simp only [Option.pure_def, Option.bind_eq_bind, Option.some_bind, ne_eq, hne,
      not_false_eq_true, ↓reduceIte]
    rw [fillTimeline_getElem? n clk _ (by omega : midIndex s.i j + 1 < n + n + 1),
      fillTimeline_getElem? n clk _ (by omega : midIndex s.i j - 1 < n + n + 1)]
    simp only [Option.some_bind, keepMin, bracketWidth]
    rw [fillTimeline_getD n clk _ (by omega : midIndex s.i j + 1 < n + n + 1),
      fillTimeline_getD n clk _ (by omega : midIndex s.i j - 1 < n + n + 1)]
    split <;> rfl

/-- The inner loop on a filled timeline runs to its end and folds `keepMin` over the
candidates of the slots it visits; it leaves `i` at the start of the last run. -/
theorem innerLoop_fill (n : Nat) (clk : Nat → Int) :
    ∀ (k j : Nat) (s : Scan) (fuel : Nat), j + 2 * k = n + n + 1 → k ≤ fuel →
      s.i % 2 = 1 → s.i + 2 ≤ j → s.last = clk s.i →
      (∀ x, s.i ≤ x → x < j → x % 2 = 1 → clk x = clk s.i) →
      ∃ s1, innerLoop (fillTimeline n clk) fuel j s = some s1 ∧
        (s1.minDelta, s1.minIndex) =
          (candidatesAux (fillTimeline n clk) s.i (List.range' j k 2)).foldl
            (keepMin (fillTimeline n clk)) (s.minDelta, s.minIndex) ∧
        s1.i % 2 = 1 ∧ s.i ≤ s1.i ∧ s1.i + 2 ≤ n + n + 1 ∧ s1.last = clk s1.i ∧
        (∀ x, s1.i ≤ x → x < n + n → x % 2 = 1 → clk x = clk s1.i) := by
  intro k
  induction k with
  | zero =>
    intro j s fuel hj _ hio hij hlast hrun
    refine ⟨s, innerLoop_done _ _ _ _ (by rw [fillTimeline_length]; omega), ?_, hio,
      le_refl _, by omega, hlast, ?_⟩
    · simp [candidatesAux]
    · intro x h1 h2 h3
      exact hrun x h1 (by omega) h3
  | succ k ih =>
    intro j s fuel hj hfuel hio hij hlast hrun
    obtain ⟨f, rfl⟩ : ∃ f, fuel = f + 1 := ⟨fuel - 1, by omega⟩
    have hjlt : j < n + n := by omega
    have hjo : j % 2 = 1 := by omega
    have hguard : j < (fillTimeline n clk).length - 1 := by
      rw [fillTimeline_length]; omega
    have hstep : innerLoop (fillTimeline n clk) (f + 1) j s =
        (innerBody (fillTimeline n clk) j s).bind (innerLoop (fillTimeline n clk) f (j + 2)) := by
      simp [innerLoop, hguard]
    rw [hstep, innerBody_fill n clk j s hjlt hjo hio hij, Option.some_bind,
      List.range'_succ, candidatesAux,
      fillTimeline_getD n clk j (by omega), fillTimeline_getD n clk s.i (by omega), ← hlast]
    by_cases hne : clk j = s.last
    · simp only [hne, ne_eq, not_true_eq_false, ↓reduceIte]
      obtain ⟨s1, h1, h2, h3, h4, h5, h6, h7⟩ := ih (j + 2) s f (by omega) (by omega) hio
        (by omega) hlast (by
          intro x hx1 hx2 hx3
          by_cases hxj : x < j
          · exact hrun x hx1 hxj hx3
          · have : x = j := by omega
            rw [this, hne, hlast])
      exact ⟨s1, h1, h2, h3, h4, h5, h6, h7⟩
    · simp only [ne_eq, hne, not_false_eq_true, ↓reduceIte, List.foldl_cons]
      obtain ⟨s1, h1, h2, h3, h4, h5, h6, h7⟩ := ih (j + 2)
        { i := j, last := clk j,
          minDelta := (keepMin (fillTimeline n clk) (s.minDelta, s.minIndex) (midIndex s.i j)).1,
          minIndex := (keepMin (fillTimeline n clk) (s.minDelta, s.minIndex) (midIndex s.i j)).2 }
        f (by omega) (by omega) hjo (by simp) rfl (by
          intro x hx1 hx2 hx3
          have : x = j := by simp only at hx1; omega
          rw [this])
      exact ⟨s1, h1, h2, h3, by simp only at h4; omega, h5, h6, h7⟩

/-- Without a transition among the slots still to visit, the inner loop changes nothing. -/
theorem innerLoop_const (n : Nat) (clk : Nat → Int) :
    ∀ (k j : Nat) (s : Scan) (fuel : Nat), j + 2 * k = n + n + 1 → k ≤ fuel →
      s.i % 2 = 1 → s.i + 2 ≤ j →
      (∀ x, j ≤ x → x < n + n → x % 2 = 1 → clk x = s.last) →
      innerLoop (fillTimeline n clk) fuel j s = some s := by
  intro k
  induction k with
  | zero =>
    intro j s fuel hj _ _ _ _
    exact innerLoop_done _ _ _ _ (by rw [fillTimeline_length]; omega)
  | succ k ih =>
    intro j s fuel hj hfuel hio hij hrun
    obtain ⟨f, rfl⟩ : ∃ f, fuel = f + 1 := ⟨fuel - 1, by omega⟩
    have hguard : j < (fillTimeline n clk).length - 1 := by
      rw [fillTimeline_length]; omega
    have hstep : innerLoop (fillTimeline n clk) (f + 1) j s =
        (innerBody (fillTimeline n clk) j s).bind (innerLoop (fillTimeline n clk) f (j + 2)) := by
      simp [innerLoop, hguard]
    have hsame : clk j = s.last := hrun j (le_refl _) (by omega) (by omega)
    rw [hstep, innerBody_fill n clk j s (by omega) (by omega) hio hij, Option.some_bind]
    simp only [hsame, ne_eq, not_true_eq_false, ↓reduceIte]
    exact ih (j + 2) s f (by omega) (by omega) hio (by omega)
      (fun x h1 h2 h3 => hrun x (by omega) h2 h3)

/-- Without a transition among the slots from `i` on, the outer loop changes nothing. -/
theorem outerLoop_const (n : Nat) (clk : Nat → Int) (v : Int) :
    ∀ (k i : Nat) (d : Int) (m : Nat) (fuel : Nat), i + 2 * k = n + n + 1 → k ≤ fuel →
      (∀ x, i ≤ x → x < n + n → x % 2 = 1 → clk x = v) →
      outerLoop (fillTimeline n clk) fuel i d m = some (d, m) := by
  intro k
  induction k with
  | zero =>
    intro i d m fuel hi _ _
    exact outerLoop_done _ _ _ _ _ (by rw [fillTimeline_length]; omega)
  | succ k ih =>
    intro i d m fuel hi hfuel hrun
    obtain ⟨f, rfl⟩ : ∃ f, fuel = f + 1 := ⟨fuel - 1, by omega⟩
    have hguard : i < (fillTimeline n clk).length - 1 := by
      rw [fillTimeline_length]; omega
    have hvi : clk i = v := hrun i (le_refl _) (by omega) (by omega)
    have hinner := innerLoop_const n clk k (i + 2)
      { i := i, last := clk i, minDelta := d, minIndex := m } (fillTimeline n clk).length
      (by omega) (by rw [fillTimeline_length]; omega) (by simp only; omega) (by simp)
      (fun x h1 h2 h3 => by rw [hvi]; exact hrun x (by omega) h2 h3)
    have hstep : outerLoop (fillTimeline n clk) (f + 1) i d m =
        ((fillTimeline n clk)[i]?).bind fun last =>
        (innerLoop (fillTimeline n clk) (fillTimeline n clk).length (i + 2)
            { i := i, last := last, minDelta := d, minIndex := m }).bind fun s =>
        outerLoop (fillTimeline n clk) f (s.i + 2) s.minDelta s.minIndex := by
      simp [outerLoop, hguard]
    rw [hstep, fillTimeline_getElem? n clk i (by omega), Option.some_bind, hinner,
      Option.some_bind]
    exact ih (i + 2) d m f (by omega) (by omega) (fun x h1 h2 h3 => hrun x (by omega) h2 h3)

/-- The nested loops on a filled timeline compute the fold of `keepMin` over the candidates. -/
theorem outerLoop_fill (n : Nat) (hn : 1 ≤ n) (clk : Nat → Int) :
    outerLoop (fillTimeline n clk) (fillTimeline n clk).length 1 MaxInt64 1 =
      some ((candidates (fillTimeline n clk)).foldl (keepMin (fillTimeline n clk))
        (MaxInt64, 1)) := by
  obtain ⟨s1, h1, h2, h3, _, h5, _, h7⟩ := innerLoop_fill n clk (n - 1) 3
    { i := 1, last := clk 1, minDelta := MaxInt64, minIndex := 1 } (fillTimeline n clk).length
    (by omega) (by rw [fillTimeline_length]; omega) (by simp) (by simp) rfl
    (fun x hx1 hx2 hx3 => by
      have : x = 1 := by simp only at hx1; omega
      rw [this])
  have hguard : 1 < (fillTimeline n clk).length - 1 := by
    rw [fillTimeline_length]; omega
  have hlen : (fillTimeline n clk).length = n + n + 1 := fillTimeline_length n clk
  have hstep : outerLoop (fillTimeline n clk) (n + n + 1) 1 MaxInt64 1 =
      ((fillTimeline n clk)[1]?).bind fun last =>
      (innerLoop (fillTimeline n clk) (fillTimeline n clk).length (1 + 2)
          { i := 1, last := last, minDelta := MaxInt64, minIndex := 1 }).bind fun s =>
      outerLoop (fillTimeline n clk) (n + n) (s.i + 2) s.minDelta s.minIndex := by
    simp [outerLoop, hguard]
  have hcand : candidates (fillTimeline n clk) =
      candidatesAux (fillTimeline n clk) 1 (List.range' 3 (n - 1) 2) := by
    unfold candidates
    rw [hlen]
    congr 2
    omega
  rw [hcand, ← h2]
  conv_lhs => rw [hlen]
  rw [hstep, fillTimeline_getElem? n clk 1 (by omega), Option.some_bind, h1, Option.some_bind]
  exact outerLoop_const n clk (clk s1.i) ((n + n + 1 - (s1.i + 2)) / 2) (s1.i + 2) _ _ (n + n)
    (by omega) (by omega) (fun x hx1 hx2 hx3 => h7 x (by omega) hx2 hx3)

/-- The fold of `keepMin` either keeps its start value, which no element undercuts, or ends
at the first element of least bracket width. -/
theorem foldl_keepMin (tl : List Int) :
    ∀ (cs : List Nat) (acc : Int × Nat),
      (cs.foldl (keepMin tl) acc = acc ∧ ∀ c ∈ cs, acc.1 ≤ bracketWidth tl c) ∨
      ∃ pre m post, cs = pre ++ m :: post ∧
        cs.foldl (keepMin tl) acc = (bracketWidth tl m, m) ∧ bracketWidth tl m < acc.1 ∧
        (∀ c ∈ pre, bracketWidth tl m < bracketWidth tl c) ∧
        (∀ c ∈ post, bracketWidth tl m ≤ bracketWidth tl c) := by
  intro cs
  induction cs with
  | nil => intro acc; left; simp
  | cons c cs ih =>
    intro acc
    rw [List.foldl_cons]
    by_cases hlt : bracketWidth tl c < acc.1
    · have hk : keepMin tl acc c = (bracketWidth tl c, c) := by simp [keepMin, hlt]
      rw [hk]
      right
      rcases ih (bracketWidth tl c, c) with ⟨h1, h2⟩ | ⟨pre, m, post, h1, h2, h3, h4, h5⟩
      · exact ⟨[], c, cs, rfl, h1, hlt, by simp, h2⟩
      · refine ⟨c :: pre, m, post, by simp [h1], h2, lt_trans h3 hlt, ?_, h5⟩
        intro x hx
        rcases List.mem_cons.mp hx with rfl | hx
        · exact h3
        · exact h4 x hx
    · have hk : keepMin tl acc c = acc := by simp [keepMin, hlt]
      rw [hk]
      rcases ih acc with ⟨h1, h2⟩ | ⟨pre, m, post, h1, h2, h3, h4, h5⟩
      · left
        refine ⟨h1, ?_⟩
        intro x hx
        rcases List.mem_cons.mp hx with rfl | hx
        · exact not_lt.mp hlt
        · exact h2 x hx
      · right
        refine ⟨c :: pre, m, post, by simp [h1], h2, h3, ?_, h5⟩
        intro x hx
        rcases List.mem_cons.mp hx with rfl | hx
        · exact lt_of_lt_of_le h3 (not_lt.mp hlt)
        · exact h4 x hx

/-- Every candidate is an odd index inside the run it belongs to, two slots away from the end
of the timeline at least. -/
theorem candidatesAux_bounds (n : Nat) (clk : Nat → Int) :
    ∀ (k i j : Nat), j + 2 * k = n + n + 1 → i % 2 = 1 → i + 2 ≤ j →
      ∀ m ∈ candidatesAux (fillTimeline n clk) i (List.range' j k 2),
        m % 2 = 1 ∧ i ≤ m ∧ m + 2 ≤ n + n := by
  intro k
  induction k with
  | zero => intro i j _ _ _ m hm; simp [candidatesAux] at hm
  | succ k ih =>
    intro i j hj hio hij m hm
    rw [List.range'_succ, candidatesAux] at hm
    have hjo : j % 2 = 1 := by omega
    split at hm
    · rcases List.mem_cons.mp hm with rfl | hm
      · obtain ⟨h1, h2, h3⟩ := midIndex_spec i j hio hjo hij
        exact ⟨h1, h2, by omega⟩
      · obtain ⟨h1, h2, h3⟩ := ih j (j + 2) (by omega) hjo (by omega) m hm
        exact ⟨h1, by omega, h3⟩
    · exact ih i (j + 2) (by omega) hio (by omega) m hm

theorem candidates_bounds (n : Nat) (clk : Nat → Int) :
    ∀ m ∈ candidates (fillTimeline n clk), m % 2 = 1 ∧ 1 ≤ m ∧ m + 2 ≤ n + n := by
  intro m hm
  unfold candidates at hm
  rw [fillTimeline_length] at hm
  by_cases hn : 1 ≤ n
  · exact candidatesAux_bounds n clk ((n + n + 1 - 3) / 2) 1 3 (by omega) (by simp) (by simp) m hm
  · have h0 : (n + n + 1 - 3) / 2 = 0 := by omega
    rw [h0] at hm
    simp [candidatesAux] at hm

/-- The pair returned for an odd index inside a filled timeline. -/
theorem pairAt_fill (n : Nat) (clk : Nat → Int) (m : Nat) (h1 : 1 ≤ m) (h2 : m + 1 ≤ n + n) :
    pairAt (fillTimeline n clk) m = some (wrap64 (clk (m + 1) + clk (m - 1)) >>> (1 : Nat), clk m) := by
  unfold pairAt
  rw [fillTimeline_getElem? n clk _ (by omega : m + 1 < n + n + 1),
    fillTimeline_getElem? n clk _ (by omega : m - 1 < n + n + 1),
    fillTimeline_getElem? n clk _ (by omega : m < n + n + 1)]
  rfl

/-- For `n ≥ 1` the picker returns: its result is the pair at the index that the fold of
`keepMin` over the candidates ends with. -/
theorem getClosestTSCSys_eq (n : Nat) (hn : 1 ≤ n) (clk : Nat → Int) :
    ∃ m, ((candidates (fillTimeline n clk)).foldl (keepMin (fillTimeline n clk))
        (MaxInt64, 1)).2 = m ∧ 1 ≤ m ∧ m + 1 ≤ n + n ∧
      getClosestTSCSys n clk = some (wrap64 (clk (m + 1) + clk (m - 1)) >>> (1 : Nat), clk m) := by
  refine ⟨_, rfl, ?_⟩
  have hidx : 1 ≤ ((candidates (fillTimeline n clk)).foldl (keepMin (fillTimeline n clk))
        (MaxInt64, 1)).2 ∧ ((candidates (fillTimeline n clk)).foldl
        (keepMin (fillTimeline n clk)) (MaxInt64, 1)).2 + 1 ≤ n + n := by
    rcases foldl_keepMin (fillTimeline n clk) (candidates (fillTimeline n clk)) (MaxInt64, 1)
      with ⟨h1, _⟩ | ⟨pre, m, post, h1, h2, _, _, _⟩
    · rw [h1]; simp only; omega
    · rw [h2]
      obtain ⟨_, hb, hc⟩ := candidates_bounds n clk m (by rw [h1]; simp)
      simp only; omega
  refine ⟨hidx.1, hidx.2, ?_⟩
  unfold getClosestTSCSys scanTimeline
  rw [outerLoop_fill n hn clk, Option.some_bind]
  exact pairAt_fill n clk _ hidx.1 hidx.2

theorem getClosestTSCSys_isSome (n : Nat) (hn : 1 ≤ n) (clk : Nat → Int) :
    ∃ p, getClosestTSCSys n clk = some p := by
  obtain ⟨m, _, _, _, h⟩ := getClosestTSCSys_eq n hn clk
  exact ⟨_, h⟩

/-! ## Lemmas on calibration and the mode switch -/

theorem sampleLoop_some (reads : Nat → Nat → Int) :
    ∀ (cnt j : Nat), ∃ r, sampleLoop reads cnt j = some r ∧
      r.1.length = 2 * cnt ∧ r.2.length = 2 * cnt := by
  intro cnt
  induction cnt with
  | zero => intro j; exact ⟨([], []), rfl, rfl, rfl⟩
  | succ cnt ih =>
    intro j
    obtain ⟨p0, h0⟩ := getClosestTSCSys_isSome getClosestTSCSysRetries (by decide)
      (reads (2 * j))
    obtain ⟨p1, h1⟩ := getClosestTSCSys_isSome getClosestTSCSysRetries (by decide)
      (reads (2 * j + 1))
    obtain ⟨r, hr, hl1, hl2⟩ := ih (j + 1)
    refine ⟨(Float64.ofInt p0.1 :: Float64.ofInt p1.1 :: r.1,
      Float64.ofInt p0.2 :: Float64.ofInt p1.2 :: r.2), ?_, ?_, ?_⟩
    · simp only [sampleLoop, h0, h1, hr, Option.some_bind, Option.map_some']
    · simp only [List.length_cons, hl1]; omega
    · simp only [List.length_cons, hl2]; omega

theorem momentLoop_some {F : Type} [Add F] [Sub F] [Mul F] (tmean wmean : F) :
    ∀ (tscs syss : List F) (acc : F × F), tscs.length ≤ syss.length →
      ∃ r, momentLoop tmean wmean tscs syss acc = some r := by
  intro tscs
  induction tscs with
  | nil => intro syss acc _; exact ⟨acc, by simp [momentLoop]⟩
  | cons t ts ih =>
    intro syss acc hlen
    cases syss with
    | nil => simp at hlen
    | cons w ws =>
      simp only [momentLoop]
      exact ih ws _ (by simpa using hlen)

theorem simpleLinearRegression_some {F : Type} [Zero F] [Add F] [Sub F] [Mul F] [Div F]
    [Float64Conv F] (tscs syss : List F) (hlen : tscs.length ≤ syss.length) :
    ∃ fit, simpleLinearRegression tscs syss = some fit := by
  unfold simpleLinearRegression
  obtain ⟨r, hr⟩ := momentLoop_some
    (sumLoop (0 : F) tscs / Float64Conv.ofInt (tscs.length : Int))
    (sumLoop (0 : F) syss / Float64Conv.ofInt (syss.length : Int)) tscs syss (0, 0) hlen
  simp only [hr, Option.map_some']
  exact ⟨_, rfl⟩

/-- On a machine that passes the probe, `Calibrate` returns: the sampling loop and the
regression return and the two parameter blocks are stored from the fit. -/
theorem Calibrate_publishes (h : Host) (reads : Nat → Nat → Int) (st : State)
    (hp : (isHardwareSupported h st).1 = true) :
    ∃ r fit, sampleLoop reads samples 0 = some r ∧ simpleLinearRegression r.1 r.2 = some fit ∧
      Calibrate h reads st = some
        { (isHardwareSupported h st).2 with
          OffsetCoeff := storeOffsetCoeff (isHardwareSupported h st).2.OffsetCoeff fit.2 fit.1,
          OffsetCoeffF := storeOffsetFCoeff (isHardwareSupported h st).2.OffsetCoeffF
            (Float64.ofInt fit.2) fit.1 } := by
  obtain ⟨r, hr, hl1, hl2⟩ := sampleLoop_some reads samples 0
  obtain ⟨fit, hfit⟩ := simpleLinearRegression_some r.1 r.2 (by omega)
  refine ⟨r, fit, hr, hfit, ?_⟩
  unfold Calibrate
  simp only [hp, Bool.not_true, Bool.false_eq_true, ↓reduceIte, hr, Option.some_bind, hfit,
    Option.map_some']

/-- On a machine that passes the probe, `Calibrate` returns and writes the two parameter
blocks and, at most, the flag `supported`. -/
theorem Calibrate_probe_true (h : Host) (reads : Nat → Nat → Int) (st : State)
    (hp : (isHardwareSupported h st).1 = true) :
    ∃ b1 b2, Calibrate h reads st =
      some { (isHardwareSupported h st).2 with OffsetCoeff := b1, OffsetCoeffF := b2 } := by
  obtain ⟨_, _, _, _, hcal⟩ := Calibrate_publishes h reads st hp
  exact ⟨_, _, hcal⟩

theorem isHardwareSupported_of_flag (h : Host) (st : State) (hs : st.supported = 1) :
    isHardwareSupported h st = (true, st) := by
  simp [isHardwareSupported, hs]

theorem isHardwareSupported_true_flag (h : Host) (st : State)
    (hp : (isHardwareSupported h st).1 = true) :
    (isHardwareSupported h st).2.supported = 1 ∧
    (isHardwareSupported h st).2.allowOutOfOrder = st.allowOutOfOrder ∧
    isHardwareSupported h (isHardwareSupported h st).2 = (true, (isHardwareSupported h st).2) := by
  unfold isHardwareSupported at hp ⊢
  by_cases h1 : st.supported = 1
  · simp [h1, isHardwareSupported]
  · by_cases h2 : (!h.X86.HasInvariantTSC && GetCurrentClockSource h != "tsc") = true
    · simp [h1, h2] at hp
    · by_cases h3 : (!h.X86.HasAVX) = true
      · simp [h1, h2, h3] at hp
      · simp [h1, h2, h3, isHardwareSupported]

theorem isHardwareSupported_false_state (h : Host) (st : State)
    (hp : (isHardwareSupported h st).1 = false) : (isHardwareSupported h st).2 = st := by
  unfold isHardwareSupported at hp ⊢
  by_cases h1 : st.supported = 1
  · simp [h1] at hp
  · by_cases h2 : (!h.X86.HasInvariantTSC && GetCurrentClockSource h != "tsc") = true
    · simp [h1, h2]
    · by_cases h3 : (!h.X86.HasAVX) = true
      · simp [h1, h2, h3]
      · simp [h1, h2, h3] at hp

/-- On a machine that passes the probe, `reset` returns `true` and sets `UnixNano` from the
flag `allowOutOfOrder` alone: with the flag set it is `unixNanoTSC16B` whatever the two
measured costs are, otherwise the fenced variant. -/
theorem reset_probe_true (h : Host) (reads : Nat → Nat → Int) (inOrder : Nat → Int)
    (st : State) (hp : (isHardwareSupported h st).1 = true) :
    ∃ st1, reset h reads inOrder st = some (true, st1) ∧ st1.supported = 1 ∧
      st1.allowOutOfOrder = st.allowOutOfOrder ∧
      st1.UnixNano = (if st.allowOutOfOrder = 1 then Clock.unixNanoTSC16B
        else Clock.unixNanoTSC16Bfence) := by
  obtain ⟨hflag, hallow, hagain⟩ := isHardwareSupported_true_flag h st hp
  obtain ⟨b1, b2, hcal⟩ := Calibrate_probe_true h reads (isHardwareSupported h st).2
    (by rw [hagain])
  rw [hagain] at hcal
  unfold reset
  simp only [hp, Bool.not_true, Bool.false_eq_true, ↓reduceIte, hcal, Option.map_some']
  by_cases ha : st.allowOutOfOrder = 1
  · have hio : IsOutOfOrder { (isHardwareSupported h st).2 with
        OffsetCoeff := b1, OffsetCoeffF := b2 } = true := by
      simp [IsOutOfOrder, hallow, ha]
    simp only [hio, ↓reduceIte, ha]
    refine ⟨_, rfl, ?_, ?_, ?_⟩
    · unfold chooseUnfenced
      simp only
      split <;> [split; skip] <;> exact hflag
    · unfold chooseUnfenced
      simp only
      split <;> [split; skip] <;> simp [hallow, ha]
    · simp [chooseUnfenced]
  · have hio : IsOutOfOrder { (isHardwareSupported h st).2 with
        OffsetCoeff := b1, OffsetCoeffF := b2 } = false := by
      simp [IsOutOfOrder, hallow, ha]
    simp only [hio, Bool.false_eq_true, ↓reduceIte, ha]
    exact ⟨_, rfl, hflag, hallow, rfl⟩

/-! ## Lemmas on the regression with exact arithmetic -/

theorem sumLoop_rat (xs : List ℚ) (acc : ℚ) : sumLoop acc xs = acc + xs.sum := by
  unfold sumLoop
  induction xs generalizing acc with
  | nil => simp
  | cons x xs ih => rw [List.foldl_cons, ih, List.sum_cons]; ring

theorem momentLoop_rat (tm wm : ℚ) :
    ∀ (tscs syss : List ℚ) (acc : ℚ × ℚ), tscs.length = syss.length →
      momentLoop tm wm tscs syss acc =
        some (acc.1 + (List.zipWith (fun t w => (t - tm) * (w - wm)) tscs syss).sum,
          acc.2 + (tscs.map (fun t => (t - tm) * (t - tm))).sum) := by
  intro tscs
  induction tscs with
  | nil => intro syss acc _; simp [momentLoop]
  | cons t ts ih =>
    intro syss acc hlen
    cases syss with
    | nil => simp at hlen
    | cons w ws =>
      simp only [momentLoop]
      rw [ih ws _ (by simpa using hlen)]
      simp only [List.zipWith_cons_cons, List.sum_cons, List.map_cons]
      congr 1
      ext <;> simp only <;> ring

/-- The truncation toward zero is the floor of a non-negative and the ceiling of a negative
rational. -/
theorem truncRat_eq (q : ℚ) : truncRat q = if 0 ≤ q then ⌊q⌋ else ⌈q⌉ := by
  unfold truncRat
  split
  · rename_i h
    rw [Rat.floor_def, Int.tdiv_eq_ediv (Rat.num_nonneg.mpr h) (by exact_mod_cast Nat.zero_le _)]
  · rename_i h
    have hneg : 0 ≤ -q := by linarith
    have h1 : ⌈q⌉ = -⌊-q⌋ := by rw [Int.floor_neg, neg_neg]
    rw [h1, Rat.floor_def, Rat.neg_num, Rat.neg_den,
      ← Int.tdiv_eq_ediv (by simpa using Rat.num_nonneg.mpr hneg)
        (by exact_mod_cast Nat.zero_le _),
      Int.neg_tdiv, neg_neg]

/-- With exact arithmetic `simpleLinearRegression` returns the least-squares slope and the
`int64` conversion of the least-squares intercept. -/
theorem simpleLinearRegression_rat (tscs syss : List ℚ) (hlen : tscs.length = syss.length) :
    simpleLinearRegression tscs syss =
      some (olsSlope tscs syss, Float64Conv.toInt64 (olsIntercept tscs syss)) := by
  unfold simpleLinearRegression
  simp only [sumLoop_rat, zero_add]
  have h1 : (Float64Conv.ofInt (tscs.length : Int) : ℚ) = (tscs.length : ℚ) := by
    simp [Float64Conv.ofInt]
  have h2 : (Float64Conv.ofInt (syss.length : Int) : ℚ) = (syss.length : ℚ) := by
    simp [Float64Conv.ofInt]
  rw [h1, h2, momentLoop_rat _ _ tscs syss (0, 0) hlen]
  simp only [Option.map_some', zero_add]
  rfl

/-- Counters that are not all equal have a positive sum of squared deviations. -/
theorem sqSum_pos (tscs : List ℚ) (hvar : ∃ a ∈ tscs, ∃ b ∈ tscs, a ≠ b) : 0 < sqSum tscs := by
  obtain ⟨a, ha, b, hb, hab⟩ := hvar
  have hex : ∃ t ∈ tscs, t ≠ mean tscs := by
    by_cases h : a = mean tscs
    · exact ⟨b, hb, fun hb2 => hab (h.trans hb2.symm)⟩
    · exact ⟨a, ha, h⟩
  obtain ⟨t, ht, htm⟩ := hex
  unfold sqSum
  have hnonneg : ∀ x ∈ tscs.map (fun t => (t - mean tscs) * (t - mean tscs)), 0 ≤ x := by
    intro x hx
    obtain ⟨y, _, rfl⟩ := List.mem_map.mp hx
    exact mul_self_nonneg _
  have hmem : (t - mean tscs) * (t - mean tscs) ∈
      tscs.map (fun t => (t - mean tscs) * (t - mean tscs)) :=
    List.mem_map.mpr ⟨t, ht, rfl⟩
  have hpos : 0 < (t - mean tscs) * (t - mean tscs) :=
    mul_self_pos.mpr (sub_ne_zero.mpr htm)
  exact lt_of_lt_of_le hpos (List.single_le_sum hnonneg _ hmem)

/-! ## Lemmas on machine words and the forced-coefficient calibration -/

theorem wrap64_range (x : Int) :
    -9223372036854775808 ≤ wrap64 x ∧ wrap64 x < 9223372036854775808 := by
  unfold wrap64; omega

theorem wrap64_of_range (x : Int) (hlo : -9223372036854775808 ≤ x)
    (hhi : x < 9223372036854775808) : wrap64 x = x := by
  unfold wrap64; omega

theorem ofBits64_toBits64 (x : Int) (hlo : -9223372036854775808 ≤ x)
    (hhi : x < 9223372036854775808) : ofBits64 (toBits64 x) = x := by
  unfold ofBits64 toBits64 wrap64
  omega

/-- With the flag `supported` at 1, `CalibrateWithCoeff` returns: the picker returns a pair
and the two parameter blocks are stored from it. -/
theorem CalibrateWithCoeff_supported (coeff : Float64) (clk : Nat → Int) (st : State)
    (hs : st.supported = 1) :
    ∃ p, getClosestTSCSys getClosestTSCSysRetries clk = some p ∧
      CalibrateWithCoeff coeff clk st = some
        { st with
          OffsetCoeff := storeOffsetCoeff st.OffsetCoeff
            (wrap64 (p.2 - Float64.toInt64 (Float64.ofInt p.1 * coeff))) coeff,
          OffsetCoeffF := storeOffsetFCoeff st.OffsetCoeffF
            (Float64.ofInt (wrap64 (p.2 - Float64.toInt64 (Float64.ofInt p.1 * coeff))))
            coeff } := by
  obtain ⟨p, hp⟩ := getClosestTSCSys_isSome getClosestTSCSysRetries (by decide) clk
  refine ⟨p, hp, ?_⟩
  have hsup : Supported st = true := by simp [Supported, hs]
  simp [CalibrateWithCoeff, hsup, hp]

/-- A load after a store of an offset in `int64` range and a well-formed coefficient. -/
theorem LoadOffsetCoeff_store (dst : Block) (offset : Int) (coeff : Float64)
    (hlo : -9223372036854775808 ≤ offset) (hhi : offset < 9223372036854775808)
    (hc : coeff.bits < 18446744073709551616) :
    LoadOffsetCoeff (storeOffsetCoeff dst offset coeff) = (offset, coeff) := by
  unfold LoadOffsetCoeff storeOffsetCoeff
  simp only [Nat.mod_eq_of_lt hc, ofBits64_toBits64 offset hlo hhi]

/-! ## Lemmas on float64 -/

namespace Float64

theorem log2_one : Nat.log2 1 = 0 := by
  have h := (Nat.log2_lt (n := 1) (k := 1) (by decide)).mpr (by decide)
  omega

theorem ilog2_int (p : Nat) (hp0 : 0 < p) : ilog2 p 1 = (Nat.log2 p : Int) := by
  have hle : 2 ^ Nat.log2 p ≤ p := Nat.log2_self_le (by omega)
  unfold ilog2
  simp only [log2_one, Nat.cast_zero, sub_zero, Int.toNat_ofNat, one_mul]
  have h1 : (-(Nat.log2 p : Int)).toNat = 0 := by omega
  rw [h1, pow_zero, mul_one, if_neg (by omega)]

theorem roundHalfEven_one (N : Nat) : roundHalfEven N 1 = N := by
  unfold roundHalfEven
  simp [Nat.mod_one]

/-- The pattern of a positive integer below `2^53`: no rounding takes place. -/
theorem ofMag_int (neg : Bool) (p : Nat) (hp0 : 0 < p) (hp : p < 9007199254740992) :
    ofMag neg p 1 = ⟨(if neg then 9223372036854775808 else 0) +
      ((Nat.log2 p + 1022) * 4503599627370496 + p * 2 ^ (52 - Nat.log2 p))⟩ ∧
    4503599627370496 ≤ p * 2 ^ (52 - Nat.log2 p) ∧
    p * 2 ^ (52 - Nat.log2 p) < 9007199254740992 ∧ Nat.log2 p ≤ 52 := by
  have he : Nat.log2 p < 53 := (Nat.log2_lt (by omega)).mpr (by simpa using hp)
  have hle : 2 ^ Nat.log2 p ≤ p := Nat.log2_self_le (by omega)
  have hlt : p < 2 ^ (Nat.log2 p + 1) := Nat.lt_log2_self
  have hpow : 2 ^ Nat.log2 p * 2 ^ (52 - Nat.log2 p) = 4503599627370496 := by
    rw [← pow_add]
    have : Nat.log2 p + (52 - Nat.log2 p) = 52 := by omega
    rw [this]; norm_num
  have hN1 : 4503599627370496 ≤ p * 2 ^ (52 - Nat.log2 p) := by
    rw [← hpow]; exact Nat.mul_le_mul_right _ hle
  have hN2 : p * 2 ^ (52 - Nat.log2 p) < 9007199254740992 := by
    have h2 : 2 ^ (Nat.log2 p + 1) * 2 ^ (52 - Nat.log2 p) = 9007199254740992 := by
      rw [← pow_add]
      have : Nat.log2 p + 1 + (52 - Nat.log2 p) = 53 := by omega
      rw [this]; norm_num
    rw [← h2]
    exact Nat.mul_lt_mul_of_pos_right hlt (by positivity)
  refine ⟨?_, hN1, hN2, by omega⟩
  unfold ofMag
  simp only [ilog2_int p hp0]
  have h1 : max (Nat.log2 p : Int) (-1022) = (Nat.log2 p : Int) := by omega
  have h2 : (-((Nat.log2 p : Int) - 52)).toNat = 52 - Nat.log2 p := by omega
  have h3 : ((Nat.log2 p : Int) - 52).toNat = 0 := by omega
  have h4 : ((Nat.log2 p : Int) + 1022).toNat = Nat.log2 p + 1022 := by omega
  rw [if_neg (by omega)]
  simp only [h1, h2, h3, h4, pow_zero, mul_one, roundHalfEven_one]
  rw [if_neg (by omega)]

/-- The three fields of the pattern of a normal number. -/
theorem fields_normal (neg : Bool) (E N : Nat) (hE : E ≤ 52)
    (hN1 : 4503599627370496 ≤ N) (hN2 : N < 9007199254740992) :
    expField ⟨(if neg then 9223372036854775808 else 0) +
        ((E + 1022) * 4503599627370496 + N)⟩ = E + 1023 ∧
    fracField ⟨(if neg then 9223372036854775808 else 0) +
        ((E + 1022) * 4503599627370496 + N)⟩ = N - 4503599627370496 ∧
    signBit ⟨(if neg then 9223372036854775808 else 0) +
        ((E + 1022) * 4503599627370496 + N)⟩ = neg := by
  unfold expField fracField signBit
  cases neg
  · simp only [Bool.false_eq_true, ↓reduceIte, zero_add]
    refine ⟨by omega, by omega, ?_⟩
    have : ((E + 1022) * 4503599627370496 + N) / 9223372036854775808 % 2 = 0 := by omega
    rw [this]; rfl
  · simp only [↓reduceIte]
    refine ⟨by omega, by omega, ?_⟩
    have : (9223372036854775808 + ((E + 1022) * 4503599627370496 + N))
        / 9223372036854775808 % 2 = 1 := by omega
    rw [this]; rfl

/-- Go `float64(z)` is exact for `|z| < 2^53`: the pattern is finite, carries the sign of `z`
and has magnitude `|z|`. -/
theorem ofInt_exact (z : Int) (hlo : -9007199254740992 < z) (hhi : z < 9007199254740992) :
    (ofInt z).expField ≠ 2047 ∧ (ofInt z).signBit = decide (z < 0) ∧
    (ofInt z).mag = (z.natAbs : ℚ) ∧ (ofInt z).bits < 18446744073709551616 := by
  by_cases hz : z = 0
  · subst hz
    have h0 : ofInt 0 = ⟨0⟩ := by simp [ofInt, ofMag]
    rw [h0]
    refine ⟨by decide, by decide, ?_, by norm_num⟩
    simp [mag, expField, fracField]
  · have hp0 : 0 < z.natAbs := Int.natAbs_pos.mpr hz
    have hp : z.natAbs < 9007199254740992 := by omega
    obtain ⟨hbits, hN1, hN2, hE⟩ := ofMag_int (decide (z < 0)) z.natAbs hp0 hp
    obtain ⟨hexp, hfrac, hsign⟩ := fields_normal (decide (z < 0)) (Nat.log2 z.natAbs)
      (z.natAbs * 2 ^ (52 - Nat.log2 z.natAbs)) hE hN1 hN2
    unfold ofInt
    rw [hbits]
    refine ⟨by rw [hexp]; omega, hsign, ?_, ?_⟩
    · unfold mag
      rw [hexp, hfrac, if_neg (by omega)]
      have hsum : 4503599627370496 + (z.natAbs * 2 ^ (52 - Nat.log2 z.natAbs)
          - 4503599627370496) = z.natAbs * 2 ^ (52 - Nat.log2 z.natAbs) := by omega
      rw [hsum]
      by_cases h52 : 1075 ≤ Nat.log2 z.natAbs + 1023
      · have he : Nat.log2 z.natAbs = 52 := by omega
        rw [if_pos h52, he]
        simp
      · rw [if_neg h52]
        have he : 1075 - (Nat.log2 z.natAbs + 1023) = 52 - Nat.log2 z.natAbs := by omega
        rw [he]
        push_cast
        field_simp
    · show (if decide (z < 0) = true then 9223372036854775808 else 0) +
        ((Nat.log2 z.natAbs + 1022) * 4503599627370496 +
          z.natAbs * 2 ^ (52 - Nat.log2 z.natAbs)) < 18446744073709551616
      split <;> omega

/-- The value of `float64(z)` for `|z| < 2^53` is `z`. -/
theorem toRat_ofInt (z : Int) (hlo : -9007199254740992 < z) (hhi : z < 9007199254740992) :
    (ofInt z).toRat = (z : ℚ) := by
  obtain ⟨_, hs, hm, _⟩ := ofInt_exact z hlo hhi
  unfold toRat
  rw [hs, hm]
  by_cases hneg : z < 0
  · have h1 : (z.natAbs : Int) = -z := by omega
    have h2 : (z.natAbs : ℚ) = -(z : ℚ) := by
      rw [← Int.cast_natCast z.natAbs, h1, Int.cast_neg]
    simp only [hneg, decide_True, ↓reduceIte, h2, neg_neg]
  · have h1 : (z.natAbs : Int) = z := by omega
    have h2 : (z.natAbs : ℚ) = (z : ℚ) := by
      rw [← Int.cast_natCast z.natAbs, h1]
    simp only [hneg, decide_False, Bool.false_eq_true, ↓reduceIte, h2]

/-- Multiplying `float64(z)` by `1.0` changes nothing, for `|z| < 2^53`. -/
theorem ofInt_mul_one (z : Int) (hlo : -9007199254740992 < z) (hhi : z < 9007199254740992) :
    mul (ofInt z) one = ofInt z := by
  obtain ⟨he, hs, hm, _⟩ := ofInt_exact z hlo hhi
  have hone : one.signBit = false ∧ one.isNaN = false ∧ one.isInf = false := by
    refine ⟨by decide, by decide, by decide⟩
  have honemag : one.mag = 1 := by
    have h1 : one.expField = 1023 := by decide
    have h2 : one.fracField = 0 := by decide
    unfold mag
    rw [h1, h2]
    norm_num
  have hnan : (ofInt z).isNaN = false := by simp [isNaN, he]
  have hinf : (ofInt z).isInf = false := by simp [isInf, he]
  unfold mul
  simp only [hnan, hinf, hone, Bool.or_self, Bool.false_eq_true, ↓reduceIte, hs, hm, honemag,
    mul_one, Bool.bne_false, Rat.num_natCast, Int.natAbs_ofNat, Rat.den_natCast]
  rfl

/-- Go `int64(float64(z))` is `z`, for `|z| < 2^53`. -/
theorem toInt64_ofInt (z : Int) (hlo : -9007199254740992 < z) (hhi : z < 9007199254740992) :
    toInt64 (ofInt z) = z := by
  obtain ⟨he, _, _, _⟩ := ofInt_exact z hlo hhi
  unfold toInt64
  rw [if_neg he, toRat_ofInt z hlo hhi]
  simp only [Rat.num_intCast, Rat.den_intCast, Nat.cast_one, Int.tdiv_one]
  rw [if_pos (by omega)]

end Float64

/-! ## Mode switch and capability probe -/

/-- C1 (code defect). On a machine with FMA, with out-of-order reads allowed and the 1000 FMA
calls measured strictly cheaper (10 ticks) than the 1000 non-FMA calls (20 ticks), `reset()`
returns `true` and leaves `UnixNano = unixNanoTSC16B`, not the FMA variant: the assignment
`UnixNano = unixNanoTSC16B` after the benchmark is unconditional. -/
theorem reset_discards_fma_choice :
    hostFMA.X86.HasFMA = true ∧ IsOutOfOrder initialState = true ∧
    wrap64 (fmaFasterReadings 1 - fmaFasterReadings 0) <
      wrap64 (fmaFasterReadings 3 - fmaFasterReadings 2) ∧
    ∃ st, reset hostFMA steadyReads fmaFasterReadings initialState = some (true, st) ∧
      st.UnixNano = Clock.unixNanoTSC16B ∧ st.UnixNano ≠ Clock.unixNanoTSCFMA := by
  refine ⟨by decide, by decide, by decide, ?_⟩
  obtain ⟨st, h1, _, _, h4⟩ := reset_probe_true hostFMA steadyReads fmaFasterReadings
    initialState (by decide)
  have h5 : st.UnixNano = Clock.unixNanoTSC16B := by
    rw [h4]; decide
  exact ⟨st, h1, h5, by rw [h5]; decide⟩

/-- C2 (as stated, refuted). A machine that advertises invariant TSC but lacks AVX fails the
probe, although "invariant TSC or clock source tsc" holds. -/
theorem isHardwareSupported_not_iff_tsc_alone :
    ¬ ((isHardwareSupported hostNoAVX initialState).1 = true ↔
        (hostNoAVX.X86.HasInvariantTSC = true ∨ GetCurrentClockSource hostNoAVX = "tsc")) := by
  decide

/-- C2 (amended). From the flag `supported` unset, `isHardwareSupported()` returns `true` if
and only if the CPU advertises invariant TSC or `GetCurrentClockSource()` is `"tsc"`, and the
CPU has AVX; `Supported()` afterwards is the returned value. -/
theorem isHardwareSupported_iff (h : Host) (st : State) (hs : st.supported = 0) :
    ((isHardwareSupported h st).1 = true ↔
      ((h.X86.HasInvariantTSC = true ∨ GetCurrentClockSource h = "tsc") ∧
        h.X86.HasAVX = true)) ∧
    Supported (isHardwareSupported h st).2 = (isHardwareSupported h st).1 := by
  have h1 : ¬ st.supported = 1 := by omega
  unfold isHardwareSupported Supported
  cases hi : h.X86.HasInvariantTSC <;> cases ha : h.X86.HasAVX <;>
    by_cases hc : GetCurrentClockSource h = "tsc" <;> simp [h1, hi, ha, hc, hs]

theorem isHardwareSupported_iff_witness :
    initialState.supported = 0 ∧
    (((isHardwareSupported hostVM initialState).1 = true ↔
      ((hostVM.X86.HasInvariantTSC = true ∨ GetCurrentClockSource hostVM = "tsc") ∧
        hostVM.X86.HasAVX = true)) ∧
    Supported (isHardwareSupported hostVM initialState).2 =
      (isHardwareSupported hostVM initialState).1) :=
  ⟨rfl, isHardwareSupported_iff hostVM initialState rfl⟩

/-! ## Regression fit -/

/-- C3 (as stated, refuted). With exact arithmetic, on counters `[2, 5]` and system times
`[2, 4]` the intercept is `2/3`; `simpleLinearRegression` returns the offset `0`, while the
intercept rounded to the nearest integer is `1`. -/
theorem simpleLinearRegression_offset_not_rounded :
    simpleLinearRegression ([2, 5] : List ℚ) [2, 4] = some (2 / 3, 0) ∧
    olsIntercept [2, 5] [2, 4] = 2 / 3 ∧ round (olsIntercept [2, 5] [2, 4]) = 1 := by
  have hi : olsIntercept [2, 5] [2, 4] = 2 / 3 := by
    norm_num [olsIntercept, olsSlope, covSum, sqSum, mean]
  have hs : olsSlope [2, 5] [2, 4] = 2 / 3 := by
    norm_num [olsSlope, covSum, sqSum, mean]
  have ht : truncRat (2 / 3) = 0 := by
    rw [truncRat_eq, if_pos (by norm_num), Int.floor_eq_iff]
    norm_num
  refine ⟨?_, hi, ?_⟩
  · rw [simpleLinearRegression_rat [2, 5] [2, 4] rfl, hi, hs]
    simp [Float64Conv.toInt64, ht]
  · rw [hi, round_eq, Int.floor_eq_iff]
    norm_num

/-- C3 (amended). With exact arithmetic, for equal-length sample lists whose counters are not
all equal (hence non-empty) the sum of squared deviations is positive and
`simpleLinearRegression` returns the least-squares slope `Σ(cᵢ−c̄)(sᵢ−s̄) / Σ(cᵢ−c̄)²` and, for
an intercept in the `int64` range, the intercept truncated toward zero (its floor when it is
non-negative, its ceiling when it is negative). -/
theorem simpleLinearRegression_exact (tscs syss : List ℚ)
    (hlen : tscs.length = syss.length) (hvar : ∃ a ∈ tscs, ∃ b ∈ tscs, a ≠ b)
    (hlo : -9223372036854775808 ≤ olsIntercept tscs syss)
    (hhi : olsIntercept tscs syss < 9223372036854775808) :
    0 < sqSum tscs ∧
    simpleLinearRegression tscs syss =
      some (covSum tscs syss / sqSum tscs,
        if 0 ≤ olsIntercept tscs syss then ⌊olsIntercept tscs syss⌋
        else ⌈olsIntercept tscs syss⌉) := by
  refine ⟨sqSum_pos tscs hvar, ?_⟩
  rw [simpleLinearRegression_rat tscs syss hlen]
  have htr : Float64Conv.toInt64 (olsIntercept tscs syss) = truncRat (olsIntercept tscs syss) := by
    have hr : -9223372036854775808 ≤ truncRat (olsIntercept tscs syss) ∧
        truncRat (olsIntercept tscs syss) < 9223372036854775808 := by
      rw [truncRat_eq]
      split
      · constructor
        · exact le_trans (by norm_num) (Int.floor_nonneg.mpr ‹_›)
        · exact Int.floor_lt.mpr (by exact_mod_cast hhi)
      · constructor
        · exact Int.le_ceil_iff.mpr (by push_cast; linarith)
        · have hneg : olsIntercept tscs syss < 0 := lt_of_not_le ‹_›
          have : ⌈olsIntercept tscs syss⌉ ≤ 0 := Int.ceil_le.mpr (by exact_mod_cast hneg.le)
          omega
    simp only [Float64Conv.toInt64, hr, and_self, ↓reduceIte]
  rw [htr, truncRat_eq]
  rfl

theorem simpleLinearRegression_exact_witness :
    ([2, 5] : List ℚ).length = ([2, 4] : List ℚ).length ∧
    (∃ a ∈ ([2, 5] : List ℚ), ∃ b ∈ ([2, 5] : List ℚ), a ≠ b) ∧
    -9223372036854775808 ≤ olsIntercept [2, 5] [2, 4] ∧
    olsIntercept [2, 5] [2, 4] < 9223372036854775808 ∧
    (0 < sqSum [2, 5] ∧
    simpleLinearRegression ([2, 5] : List ℚ) [2, 4] =
      some (covSum [2, 5] [2, 4] / sqSum [2, 5],
        if 0 ≤ olsIntercept [2, 5] [2, 4] then ⌊olsIntercept [2, 5] [2, 4]⌋
        else ⌈olsIntercept [2, 5] [2, 4]⌉)) := by
  have hi : olsIntercept [2, 5] [2, 4] = 2 / 3 := by
    norm_num [olsIntercept, olsSlope, covSum, sqSum, mean]
  have hv : ∃ a ∈ ([2, 5] : List ℚ), ∃ b ∈ ([2, 5] : List ℚ), a ≠ b :=
    ⟨2, by simp, 5, by simp, by norm_num⟩
  have hlo : -9223372036854775808 ≤ olsIntercept [2, 5] [2, 4] := by rw [hi]; norm_num
  have hhi : olsIntercept [2, 5] [2, 4] < 9223372036854775808 := by rw [hi]; norm_num
  exact ⟨rfl, hv, hlo, hhi, simpleLinearRegression_exact [2, 5] [2, 4] rfl hv hlo hhi⟩

/-! ## Forced-coefficient calibration -/

/-- C4. With the flag `supported` at 1, for every coefficient `c`, `CalibrateWithCoeff(c)`
returns and a `LoadOffsetCoeff` of the parameter block then gives the coefficient `c` itself
and the offset `sys - int64(float64(counter) * c)` (in `int64` arithmetic), where
`(counter, sys)` is the pair that `getClosestTSCSys(256)` returned; for `c = 1.0` and
`|counter| < 2^53` the offset is the `int64` difference `sys - counter`, which is the exact
difference whenever that is an `int64`. -/
theorem CalibrateWithCoeff_publishes (coeff : Float64) (clk : Nat → Int) (st : State)
    (hs : st.supported = 1) (hc : coeff.bits < 18446744073709551616) :
    ∃ counter sys st1,
      getClosestTSCSys getClosestTSCSysRetries clk = some (counter, sys) ∧
      CalibrateWithCoeff coeff clk st = some st1 ∧
      LoadOffsetCoeff st1.OffsetCoeff =
        (wrap64 (sys - Float64.toInt64 (Float64.ofInt counter * coeff)), coeff) ∧
      (coeff = Float64.one → -9007199254740992 < counter → counter < 9007199254740992 →
        (LoadOffsetCoeff st1.OffsetCoeff).1 = wrap64 (sys - counter) ∧
        (-9223372036854775808 ≤ sys - counter → sys - counter < 9223372036854775808 →
          (LoadOffsetCoeff st1.OffsetCoeff).1 = sys - counter)) := by
  obtain ⟨p, hp, hcal⟩ := CalibrateWithCoeff_supported coeff clk st hs
  obtain ⟨hlo, hhi⟩ := wrap64_range (p.2 - Float64.toInt64 (Float64.ofInt p.1 * coeff))
  have hload := LoadOffsetCoeff_store st.OffsetCoeff
    (wrap64 (p.2 - Float64.toInt64 (Float64.ofInt p.1 * coeff))) coeff hlo hhi hc
  refine ⟨p.1, p.2, _, hp, hcal, hload, ?_⟩
  intro hone h1 h2
  have hmul : Float64.ofInt p.1 * coeff = Float64.ofInt p.1 := by
    rw [hone]
    exact Float64.ofInt_mul_one p.1 h1 h2
  have hoff : (LoadOffsetCoeff (storeOffsetCoeff st.OffsetCoeff
      (wrap64 (p.2 - Float64.toInt64 (Float64.ofInt p.1 * coeff))) coeff)).1 =
      wrap64 (p.2 - p.1) := by
    rw [hload]
    show wrap64 (p.2 - Float64.toInt64 (Float64.ofInt p.1 * coeff)) = wrap64 (p.2 - p.1)
    rw [hmul, Float64.toInt64_ofInt p.1 h1 h2]
  refine ⟨hoff, fun h3 h4 => ?_⟩
  rw [hoff, wrap64_of_range _ h3 h4]

theorem CalibrateWithCoeff_publishes_witness :
    supportedState.supported = 1 ∧ Float64.one.bits < 18446744073709551616 ∧
    ∃ counter sys st1,
      getClosestTSCSys getClosestTSCSysRetries (steadyReads 0) = some (counter, sys) ∧
      CalibrateWithCoeff Float64.one (steadyReads 0) supportedState = some st1 ∧
      LoadOffsetCoeff st1.OffsetCoeff =
        (wrap64 (sys - Float64.toInt64 (Float64.ofInt counter * Float64.one)), Float64.one) ∧
      (Float64.one = Float64.one → -9007199254740992 < counter →
        counter < 9007199254740992 →
        (LoadOffsetCoeff st1.OffsetCoeff).1 = wrap64 (sys - counter) ∧
        (-9223372036854775808 ≤ sys - counter → sys - counter < 9223372036854775808 →
          (LoadOffsetCoeff st1.OffsetCoeff).1 = sys - counter)) :=
  ⟨rfl, by decide,
    CalibrateWithCoeff_publishes Float64.one (steadyReads 0) supportedState rfl (by decide)⟩

/-! ## Frame and mode invariants -/

/-- C5. With the flag `supported` at 0 on a machine that fails the probe, each of `reset`,
`AllowOutOfOrder`, `ForbidOutOfOrder`, `Calibrate` and `CalibrateWithCoeff` returns and leaves
every package variable as it was: `UnixNano` (the system-clock wrapper `sysClock` if it was),
both parameter blocks and both flags. -/
theorem unsupported_freezes_state (h : Host) (reads : Nat → Nat → Int) (inOrder : Nat → Int)
    (coeff : Float64) (clk : Nat → Int) (st : State)
    (hs : st.supported = 0) (hp : (isHardwareSupported h st).1 = false) :
    reset h reads inOrder st = some (false, st) ∧
    AllowOutOfOrder h reads inOrder st = some st ∧
    ForbidOutOfOrder h reads inOrder st = some st ∧
    Calibrate h reads st = some st ∧
    CalibrateWithCoeff coeff clk st = some st ∧
    (st.UnixNano = Clock.sysClock →
      ∀ st1, (reset h reads inOrder st = some (false, st1) ∨
          AllowOutOfOrder h reads inOrder st = some st1 ∨
          ForbidOutOfOrder h reads inOrder st = some st1 ∨
          Calibrate h reads st = some st1 ∨
          CalibrateWithCoeff coeff clk st = some st1) →
        st1.UnixNano = Clock.sysClock) := by
  have hst := isHardwareSupported_false_state h st hp
  have hsup : Supported st = false := by simp [Supported, hs]
  have h1 : reset h reads inOrder st = some (false, st) := by
    simp [reset, hp, hst]
  have h2 : AllowOutOfOrder h reads inOrder st = some st := by
    simp [AllowOutOfOrder, hsup]
  have h3 : ForbidOutOfOrder h reads inOrder st = some st := by
    simp [ForbidOutOfOrder, hsup]
  have h4 : Calibrate h reads st = some st := by
    simp [Calibrate, hp, hst]
  have h5 : CalibrateWithCoeff coeff clk st = some st := by
    simp [CalibrateWithCoeff, hsup]
  refine ⟨h1, h2, h3, h4, h5, ?_⟩
  intro hu st1 hor
  rw [h1, h2, h3, h4, h5] at hor
  have : st = st1 := by
    rcases hor with h | h | h | h | h
    · exact (Prod.mk.inj (Option.some.inj h)).2
    all_goals exact Option.some.inj h
  rw [← this]; exact hu

theorem unsupported_freezes_state_witness :
    initialState.supported = 0 ∧ (isHardwareSupported hostHPET initialState).1 = false ∧
    (reset hostHPET steadyReads fmaFasterReadings initialState = some (false, initialState) ∧
    AllowOutOfOrder hostHPET steadyReads fmaFasterReadings initialState = some initialState ∧
    ForbidOutOfOrder hostHPET steadyReads fmaFasterReadings initialState = some initialState ∧
    Calibrate hostHPET steadyReads initialState = some initialState ∧
    CalibrateWithCoeff Float64.one (steadyReads 0) initialState = some initialState ∧
    (initialState.UnixNano = Clock.sysClock →
      ∀ st1, (reset hostHPET steadyReads fmaFasterReadings initialState = some (false, st1) ∨
          AllowOutOfOrder hostHPET steadyReads fmaFasterReadings initialState = some st1 ∨
          ForbidOutOfOrder hostHPET steadyReads fmaFasterReadings initialState = some st1 ∨
          Calibrate hostHPET steadyReads initialState = some st1 ∨
          CalibrateWithCoeff Float64.one (steadyReads 0) initialState = some st1) →
        st1.UnixNano = Clock.sysClock)) :=
  ⟨rfl, by decide, unsupported_freezes_state hostHPET steadyReads fmaFasterReadings Float64.one
    (steadyReads 0) initialState rfl (by decide)⟩

/-- C6. With the flag `supported` at 1, `ForbidOutOfOrder()` returns with `IsOutOfOrder()`
false and `UnixNano` the fenced variant, `AllowOutOfOrder()` returns with `IsOutOfOrder()` true
and `UnixNano` an unfenced variant; after either call `UnixNano` is the fenced variant if and
only if `IsOutOfOrder()` is false. -/
theorem fenced_mode_follows_flag (h : Host) (reads : Nat → Nat → Int) (inOrder : Nat → Int)
    (st : State) (hs : st.supported = 1) :
    (∃ st1, ForbidOutOfOrder h reads inOrder st = some st1 ∧ IsOutOfOrder st1 = false ∧
      st1.UnixNano = Clock.unixNanoTSC16Bfence ∧
      (st1.UnixNano = Clock.unixNanoTSC16Bfence ↔ IsOutOfOrder st1 = false)) ∧
    (∃ st2, AllowOutOfOrder h reads inOrder st = some st2 ∧ IsOutOfOrder st2 = true ∧
      (st2.UnixNano = Clock.unixNanoTSC16B ∨ st2.UnixNano = Clock.unixNanoTSCFMA) ∧
      (st2.UnixNano = Clock.unixNanoTSC16Bfence ↔ IsOutOfOrder st2 = false)) := by
  have hsup : Supported st = true := by simp [Supported, hs]
  constructor
  · obtain ⟨st1, h1, _, h3, h4⟩ := reset_probe_true h reads inOrder
      { st with allowOutOfOrder := 0 }
      (by rw [isHardwareSupported_of_flag h { st with allowOutOfOrder := 0 } hs])
    have hio : IsOutOfOrder st1 = false := by simp [IsOutOfOrder, h3]
    have hu : st1.UnixNano = Clock.unixNanoTSC16Bfence := by simpa using h4
    exact ⟨st1, by simp [ForbidOutOfOrder, hsup, h1], hio, hu, by simp [hio, hu]⟩
  · obtain ⟨st2, h1, _, h3, h4⟩ := reset_probe_true h reads inOrder
      { st with allowOutOfOrder := 1 }
      (by rw [isHardwareSupported_of_flag h { st with allowOutOfOrder := 1 } hs])
    have hio : IsOutOfOrder st2 = true := by simp [IsOutOfOrder, h3]
    have hu : st2.UnixNano = Clock.unixNanoTSC16B := by simpa using h4
    exact ⟨st2, by simp [AllowOutOfOrder, hsup, h1], hio, Or.inl hu, by simp [hio, hu]⟩

theorem fenced_mode_follows_flag_witness :
    supportedState.supported = 1 ∧
    ((∃ st1, ForbidOutOfOrder hostFMA steadyReads fmaFasterReadings supportedState = some st1 ∧
      IsOutOfOrder st1 = false ∧ st1.UnixNano = Clock.unixNanoTSC16Bfence ∧
      (st1.UnixNano = Clock.unixNanoTSC16Bfence ↔ IsOutOfOrder st1 = false)) ∧
    (∃ st2, AllowOutOfOrder hostFMA steadyReads fmaFasterReadings supportedState = some st2 ∧
      IsOutOfOrder st2 = true ∧
      (st2.UnixNano = Clock.unixNanoTSC16B ∨ st2.UnixNano = Clock.unixNanoTSCFMA) ∧
      (st2.UnixNano = Clock.unixNanoTSC16Bfence ↔ IsOutOfOrder st2 = false))) :=
  ⟨rfl, fenced_mode_follows_flag hostFMA steadyReads fmaFasterReadings supportedState rfl⟩

/-! ## Sign of the published coefficient -/

/-- C7 (as stated, refuted). `CalibrateWithCoeff(-1.0)` stores the coefficient `-1.0`, whose
value is `-1`; and with exact arithmetic `simpleLinearRegression` on counters `[0, 1]` and
system times `[1, 0]` returns the slope `-1`. -/
theorem published_coefficient_can_be_negative :
    (∃ off st1, CalibrateWithCoeff Float64.negOne (steadyReads 0) supportedState = some st1 ∧
      st1.OffsetCoeff = storeOffsetCoeff supportedState.OffsetCoeff off Float64.negOne) ∧
    Float64.negOne.toRat = -1 ∧
    simpleLinearRegression ([0, 1] : List ℚ) [1, 0] = some (-1, 1) := by
  refine ⟨?_, ?_, ?_⟩
  · obtain ⟨p, _, hcal⟩ := CalibrateWithCoeff_supported Float64.negOne (steadyReads 0)
      supportedState rfl
    exact ⟨_, _, hcal, rfl⟩
  · have h1 : Float64.negOne.signBit = true := by decide
    have h2 : Float64.negOne.expField = 1023 := by decide
    have h3 : Float64.negOne.fracField = 0 := by decide
    simp only [Float64.toRat, Float64.mag, h1, h2, h3]
    norm_num
  · have hs : olsSlope [0, 1] [1, 0] = -1 := by
      norm_num [olsSlope, covSum, sqSum, mean]
    have hi : olsIntercept [0, 1] [1, 0] = 1 := by
      norm_num [olsIntercept, olsSlope, covSum, sqSum, mean]
    have ht : truncRat 1 = 1 := by
      rw [truncRat_eq, if_pos (by norm_num)]
      exact Int.floor_one
    rw [simpleLinearRegression_rat [0, 1] [1, 0] rfl, hi, hs]
    simp [Float64Conv.toInt64, ht]

/-- C7 (amended). A publication stores the coefficient it is given, whatever its sign. With
the flag `supported` at 1, `CalibrateWithCoeff(c)` returns having stored `c` itself, and
`Calibrate()` returns having stored the slope that `simpleLinearRegression` returned for its
samples.  With exact arithmetic, for equal-length samples whose counters are not all equal,
that slope is positive exactly when `Σ(cᵢ−c̄)(sᵢ−s̄)` is positive. -/
theorem published_coefficient_sign (h : Host) (reads : Nat → Nat → Int) (coeff : Float64)
    (clk : Nat → Int) (st : State) (hs : st.supported = 1)
    (tscs syss : List ℚ) (hlen : tscs.length = syss.length)
    (hvar : ∃ a ∈ tscs, ∃ b ∈ tscs, a ≠ b) :
    (∃ off st1, CalibrateWithCoeff coeff clk st = some st1 ∧
      st1.OffsetCoeff = storeOffsetCoeff st.OffsetCoeff off coeff) ∧
    (∃ r fit st2, sampleLoop reads samples 0 = some r ∧
      simpleLinearRegression r.1 r.2 = some fit ∧ Calibrate h reads st = some st2 ∧
      st2.OffsetCoeff = storeOffsetCoeff st.OffsetCoeff fit.2 fit.1) ∧
    (∃ slope offset, simpleLinearRegression tscs syss = some (slope, offset) ∧
      (0 < slope ↔ 0 < covSum tscs syss)) := by
  refine ⟨?_, ?_, ?_⟩
  · obtain ⟨p, _, hcal⟩ := CalibrateWithCoeff_supported coeff clk st hs
    exact ⟨_, _, hcal, rfl⟩
  · have hprobe := isHardwareSupported_of_flag h st hs
    obtain ⟨r, fit, hr, hfit, hcal⟩ := Calibrate_publishes h reads st (by rw [hprobe])
    rw [hprobe] at hcal
    exact ⟨r, fit, _, hr, hfit, hcal, rfl⟩
  · refine ⟨_, _, simpleLinearRegression_rat tscs syss hlen, ?_⟩
    unfold olsSlope
    have hpos := sqSum_pos tscs hvar
    constructor
    · intro hslope
      by_contra hn
      have : covSum tscs syss / sqSum tscs ≤ 0 :=
        div_nonpos_of_nonpos_of_nonneg (not_lt.mp hn) hpos.le
      linarith
    · intro hcov
      exact div_pos hcov hpos

theorem published_coefficient_sign_witness :
    supportedState.supported = 1 ∧
    ([2, 5] : List ℚ).length = ([2, 4] : List ℚ).length ∧
    (∃ a ∈ ([2, 5] : List ℚ), ∃ b ∈ ([2, 5] : List ℚ), a ≠ b) ∧
    ((∃ off st1, CalibrateWithCoeff Float64.one (steadyReads 0) supportedState = some st1 ∧
      st1.OffsetCoeff = storeOffsetCoeff supportedState.OffsetCoeff off Float64.one) ∧
    (∃ r fit st2, sampleLoop steadyReads samples 0 = some r ∧
      simpleLinearRegression r.1 r.2 = some fit ∧
      Calibrate hostFMA steadyReads supportedState = some st2 ∧
      st2.OffsetCoeff = storeOffsetCoeff supportedState.OffsetCoeff fit.2 fit.1) ∧
    (∃ slope offset, simpleLinearRegression ([2, 5] : List ℚ) [2, 4] = some (slope, offset) ∧
      (0 < slope ↔ 0 < covSum [2, 5] [2, 4]))) :=
  ⟨rfl, rfl, ⟨2, by simp, 5, by simp, by norm_num⟩,
    published_coefficient_sign hostFMA steadyReads Float64.one (steadyReads 0) supportedState
      rfl [2, 5] [2, 4] rfl ⟨2, by simp, 5, by simp, by norm_num⟩⟩

/-! ## Parameter block -/

/-- C8. For every `int64` offset and every `float64` coefficient, `storeOffsetCoeff` followed
by `LoadOffsetCoeff` on the same block returns the offset and the bit pattern of the
coefficient unchanged. -/
theorem store_load_roundtrip (dst : Block) (offset : Int) (coeff : Float64)
    (hlo : -9223372036854775808 ≤ offset) (hhi : offset < 9223372036854775808)
    (hc : coeff.bits < 18446744073709551616) :
    LoadOffsetCoeff (storeOffsetCoeff dst offset coeff) = (offset, coeff) := by
  unfold LoadOffsetCoeff storeOffsetCoeff ofBits64 toBits64 wrap64
  simp only [Nat.mod_eq_of_lt hc]
  refine Prod.ext ?_ rfl
  show ((offset % 18446744073709551616).toNat + 9223372036854775808 : Int)
      % 18446744073709551616 - 9223372036854775808 = offset
  omega

theorem store_load_roundtrip_witness :
    (-9223372036854775808 : Int) ≤ 0x0123456789ABCDEF ∧
    (0x0123456789ABCDEF : Int) < 9223372036854775808 ∧
    (⟨0x3FD41B2F769CF0E0⟩ : Float64).bits < 18446744073709551616 ∧
    LoadOffsetCoeff (storeOffsetCoeff ⟨0, 0⟩ 0x0123456789ABCDEF ⟨0x3FD41B2F769CF0E0⟩) =
      (0x0123456789ABCDEF, ⟨0x3FD41B2F769CF0E0⟩) :=
  ⟨by norm_num, by norm_num, by norm_num,
    store_load_roundtrip ⟨0, 0⟩ 0x0123456789ABCDEF ⟨0x3FD41B2F769CF0E0⟩ (by norm_num)
      (by norm_num) (by norm_num)⟩

/-! ## Selection of the picker -/

/-- C9 (as stated, refuted). For `n = 3` and the timeline
`[0, 7, 0, 7, MaxInt64, 8, MaxInt64]` there is one transition, its candidate middle index is
`3` with pair `(4611686018427387903, 7)`, yet `getClosestTSCSys` returns `(0, 7)`, the pair at
index 1: the bracket width `MaxInt64` is not below the start value of `minDelta`. -/
theorem getClosestTSCSys_ignores_saturated_candidate :
    candidates (fillTimeline 3 saturatedReads) = [3] ∧
    pairAt (fillTimeline 3 saturatedReads) 3 = some (4611686018427387903, 7) ∧
    getClosestTSCSys 3 saturatedReads = some (0, 7) ∧
    ¬ ∃ m ∈ candidates (fillTimeline 3 saturatedReads),
        getClosestTSCSys 3 saturatedReads = pairAt (fillTimeline 3 saturatedReads) m := by
  decide

/-- C9 (amended). For `n ≥ 1` and a filled timeline that has a candidate of bracket width
below `math.MaxInt64`, `getClosestTSCSys` returns the pair
`((timeline[m+1] + timeline[m-1]) / 2, timeline[m])` (sum in `int64`, division rounding down)
of a candidate middle index `m` whose bracket width is strictly below that of every candidate
met before it in the scan and at most that of every candidate met after it. -/
theorem getClosestTSCSys_picks_first_min (n : Nat) (hn : 1 ≤ n) (clk : Nat → Int)
    (hc : ∃ c ∈ candidates (fillTimeline n clk),
      bracketWidth (fillTimeline n clk) c < MaxInt64) :
    ∃ pre m post, candidates (fillTimeline n clk) = pre ++ m :: post ∧
      getClosestTSCSys n clk = some (wrap64 (clk (m + 1) + clk (m - 1)) / 2, clk m) ∧
      (∀ c ∈ pre, bracketWidth (fillTimeline n clk) m < bracketWidth (fillTimeline n clk) c) ∧
      (∀ c ∈ post, bracketWidth (fillTimeline n clk) m ≤ bracketWidth (fillTimeline n clk) c) := by
  obtain ⟨m0, hm0, _, _, hres⟩ := getClosestTSCSys_eq n hn clk
  rcases foldl_keepMin (fillTimeline n clk) (candidates (fillTimeline n clk)) (MaxInt64, 1)
    with ⟨_, h2⟩ | ⟨pre, m, post, h1, h2, _, h4, h5⟩
  · obtain ⟨c, hcm, hlt⟩ := hc
    exact absurd (h2 c hcm) (not_le.mpr hlt)
  · refine ⟨pre, m, post, h1, ?_, h4, h5⟩
    rw [h2] at hm0
    simp only at hm0
    rw [hres, ← hm0, Int.shiftRight_eq_div_pow]
    rfl

theorem getClosestTSCSys_picks_first_min_witness :
    1 ≤ 5 ∧
    (∃ c ∈ candidates (fillTimeline 5 jitterReads),
      bracketWidth (fillTimeline 5 jitterReads) c < MaxInt64) ∧
    ∃ pre m post, candidates (fillTimeline 5 jitterReads) = pre ++ m :: post ∧
      getClosestTSCSys 5 jitterReads =
        some (wrap64 (jitterReads (m + 1) + jitterReads (m - 1)) / 2, jitterReads m) ∧
      (∀ c ∈ pre, bracketWidth (fillTimeline 5 jitterReads) m <
        bracketWidth (fillTimeline 5 jitterReads) c) ∧
      (∀ c ∈ post, bracketWidth (fillTimeline 5 jitterReads) m ≤
        bracketWidth (fillTimeline 5 jitterReads) c) :=
  ⟨by decide, ⟨7, by decide, by decide⟩,
    getClosestTSCSys_picks_first_min 5 (by decide) jitterReads ⟨7, by decide, by decide⟩⟩

/-- C10. For `n ≥ 1` and a timeline whose system-clock slots (odd indices) all hold the same
value, `getClosestTSCSys` returns the pair at index 1,
`((timeline[2] + timeline[0]) >> 1, timeline[1])`. -/
theorem getClosestTSCSys_no_transition (n : Nat) (hn : 1 ≤ n) (clk : Nat → Int)
    (hsame : ∀ i, i % 2 = 1 → i < n + n + 1 → clk i = clk 1) :
    getClosestTSCSys n clk = some (wrap64 (clk 2 + clk 0) >>> (1 : Nat), clk 1) := by
  unfold getClosestTSCSys scanTimeline
  rw [outerLoop_const n clk (clk 1) n 1 MaxInt64 1 (fillTimeline n clk).length (by omega)
    (by rw [fillTimeline_length]; omega) (fun x _ h2 h3 => hsame x h3 (by omega)),
    Option.some_bind]
  exact pairAt_fill n clk 1 (le_refl _) (by omega)

theorem getClosestTSCSys_no_transition_witness :
    1 ≤ 2 ∧ (∀ i, i % 2 = 1 → i < 2 + 2 + 1 → flatReads i = flatReads 1) ∧
    getClosestTSCSys 2 flatReads =
      some (wrap64 (flatReads 2 + flatReads 0) >>> (1 : Nat), flatReads 1) := by
  have hflat : ∀ i, i % 2 = 1 → i < 2 + 2 + 1 → flatReads i = flatReads 1 := by
    intro i h1 h2
    have hi : i = 1 ∨ i = 3 := by omega
    rcases hi with rfl | rfl <;> rfl
  exact ⟨by decide, hflat, getClosestTSCSys_no_transition 2 (by decide) flatReads hflat⟩

/-! ## Index safety of the picker -/

theorem candidatesAux_eq_map (tl : List Int) :
    ∀ (js : List Nat) (i : Nat),
      candidatesAux tl i js = (transitionsAux tl i js).map (fun t => midIndex t.1 t.2) := by
  intro js
  induction js with
  | nil => intro i; rfl
  | cons j js ih =>
    intro i
    simp only [candidatesAux, transitionsAux]
    split
    · rw [List.map_cons, ih j]
    · exact ih i

theorem candidates_eq_map (tl : List Int) :
    candidates tl = (transitions tl).map (fun t => midIndex t.1 t.2) :=
  candidatesAux_eq_map tl _ 1

/-- Every transition `(i, j)` of the walk over a filled timeline joins the start `i` of a run
of equal odd slots to the first odd slot `j` that differs from it. -/
theorem transitionsAux_spec (n : Nat) (clk : Nat → Int) :
    ∀ (k i j : Nat), j + 2 * k = n + n + 1 → i % 2 = 1 → i + 2 ≤ j →
      (∀ x, x % 2 = 1 → i ≤ x → x < j → clk x = clk i) →
      ∀ t ∈ transitionsAux (fillTimeline n clk) i (List.range' j k 2),
        t.1 % 2 = 1 ∧ t.2 % 2 = 1 ∧ t.1 + 2 ≤ t.2 ∧ t.2 < n + n ∧
        (∀ x, x % 2 = 1 → t.1 ≤ x → x < t.2 → clk x = clk t.1) ∧ clk t.2 ≠ clk t.1 := by
  intro k
  induction k with
  | zero => intro i j _ _ _ _ t ht; simp [transitionsAux] at ht
  | succ k ih =>
    intro i j hj hio hij hrun t ht
    have hjo : j % 2 = 1 := by omega
    rw [List.range'_succ, transitionsAux, fillTimeline_getD n clk j (by omega),
      fillTimeline_getD n clk i (by omega)] at ht
    by_cases hne : clk j = clk i
    · simp only [hne, ne_eq, not_true_eq_false, ↓reduceIte] at ht
      refine ih i (j + 2) (by omega) hio (by omega) ?_ t ht
      intro x hx1 hx2 hx3
      by_cases hxj : x < j
      · exact hrun x hx1 hx2 hxj
      · have : x = j := by omega
        rw [this, hne]
    · simp only [ne_eq, hne, not_false_eq_true, ↓reduceIte] at ht
      rcases List.mem_cons.mp ht with rfl | ht
      · exact ⟨hio, hjo, hij, by omega, hrun, hne⟩
      · refine ih j (j + 2) (by omega) hjo (by omega) ?_ t ht
        intro x hx1 hx2 hx3
        have : x = j := by omega
        rw [this]

theorem transitions_spec (n : Nat) (hn : 1 ≤ n) (clk : Nat → Int) :
    ∀ t ∈ transitions (fillTimeline n clk),
      t.1 % 2 = 1 ∧ t.2 % 2 = 1 ∧ t.1 + 2 ≤ t.2 ∧ t.2 < n + n ∧
      (∀ x, x % 2 = 1 → t.1 ≤ x → x < t.2 → clk x = clk t.1) ∧ clk t.2 ≠ clk t.1 := by
  intro t ht
  unfold transitions at ht
  rw [fillTimeline_length] at ht
  refine transitionsAux_spec n clk ((n + n + 1 - 3) / 2) 1 3 (by omega) (by simp) (by simp)
    ?_ t ht
  intro x hx1 hx2 hx3
  have : x = 1 := by omega
  rw [this]

/-- C11. For `n ≥ 1` and every timeline content `getClosestTSCSys` returns, that is, none of
its checked index accesses is out of range; the index `minIndex` it ends with has
`minIndex - 1` and `minIndex + 1` inside the timeline.  The middle indices it evaluates are
those of the transitions `(i, j)` (`i` the start of a run of equal odd slots, `j` the first
odd slot that differs): each `mid` is odd with `i ≤ mid ≤ j - 2`, so `timeline[mid]` is a slot
of the run of `timeline[i]`, `mid - 1` and `mid + 1` are inside the timeline, and the loop
body entered at `j` with the run start `i` does not panic. -/
theorem middle_index_safe (n : Nat) (hn : 1 ≤ n) (clk : Nat → Int) :
    (∃ p, getClosestTSCSys n clk = some p) ∧
    (∃ d m, outerLoop (fillTimeline n clk) (fillTimeline n clk).length 1 MaxInt64 1 =
        some (d, m) ∧ 1 ≤ m ∧ m + 1 < (fillTimeline n clk).length) ∧
    candidates (fillTimeline n clk) =
      (transitions (fillTimeline n clk)).map (fun t => midIndex t.1 t.2) ∧
    ∀ t ∈ transitions (fillTimeline n clk),
      t.1 % 2 = 1 ∧ t.2 % 2 = 1 ∧ t.2 < (fillTimeline n clk).length - 1 ∧
      (∀ x, x % 2 = 1 → t.1 ≤ x → x < t.2 → clk x = clk t.1) ∧ clk t.2 ≠ clk t.1 ∧
      midIndex t.1 t.2 % 2 = 1 ∧ t.1 ≤ midIndex t.1 t.2 ∧ midIndex t.1 t.2 ≤ t.2 - 2 ∧
      clk (midIndex t.1 t.2) = clk t.1 ∧
      (fillTimeline n clk)[midIndex t.1 t.2 - 1]? = some (clk (midIndex t.1 t.2 - 1)) ∧
      (fillTimeline n clk)[midIndex t.1 t.2 + 1]? = some (clk (midIndex t.1 t.2 + 1)) ∧
      ∀ d m, ∃ s, innerBody (fillTimeline n clk) t.2
        { i := t.1, last := clk t.1, minDelta := d, minIndex := m } = some s ∧ s.i = t.2 := by
  obtain ⟨m, hm, hm1, hm2, hres⟩ := getClosestTSCSys_eq n hn clk
  refine ⟨⟨_, hres⟩, ?_, candidates_eq_map _, ?_⟩
  · refine ⟨((candidates (fillTimeline n clk)).foldl (keepMin (fillTimeline n clk))
      (MaxInt64, 1)).1, m, ?_, hm1, by rw [fillTimeline_length]; omega⟩
    rw [outerLoop_fill n hn clk, ← hm]
  · intro t ht
    obtain ⟨h1, h2, h3, h4, h5, h6⟩ := transitions_spec n hn clk t ht
    obtain ⟨g1, g2, g3⟩ := midIndex_spec t.1 t.2 h1 h2 h3
    refine ⟨h1, h2, by rw [fillTimeline_length]; omega, h5, h6, g1, g2, by omega,
      h5 _ g1 g2 (by omega), fillTimeline_getElem? n clk _ (by omega),
      fillTimeline_getElem? n clk _ (by omega), ?_⟩
    intro d m0
    have hb := innerBody_fill n clk t.2
      { i := t.1, last := clk t.1, minDelta := d, minIndex := m0 } h4 h2 h1 h3
    simp only [ne_eq, h6, not_false_eq_true, ↓reduceIte] at hb
    exact ⟨_, hb, rfl⟩

theorem middle_index_safe_witness :
    1 ≤ 5 ∧
    ((∃ p, getClosestTSCSys 5 jitterReads = some p) ∧
    (∃ d m, outerLoop (fillTimeline 5 jitterReads) (fillTimeline 5 jitterReads).length 1
        MaxInt64 1 = some (d, m) ∧ 1 ≤ m ∧ m + 1 < (fillTimeline 5 jitterReads).length) ∧
    candidates (fillTimeline 5 jitterReads) =
      (transitions (fillTimeline 5 jitterReads)).map (fun t => midIndex t.1 t.2) ∧
    ∀ t ∈ transitions (fillTimeline 5 jitterReads),
      t.1 % 2 = 1 ∧ t.2 % 2 = 1 ∧ t.2 < (fillTimeline 5 jitterReads).length - 1 ∧
      (∀ x, x % 2 = 1 → t.1 ≤ x → x < t.2 → jitterReads x = jitterReads t.1) ∧
      jitterReads t.2 ≠ jitterReads t.1 ∧
      midIndex t.1 t.2 % 2 = 1 ∧ t.1 ≤ midIndex t.1 t.2 ∧ midIndex t.1 t.2 ≤ t.2 - 2 ∧
      jitterReads (midIndex t.1 t.2) = jitterReads t.1 ∧
      (fillTimeline 5 jitterReads)[midIndex t.1 t.2 - 1]? =
        some (jitterReads (midIndex t.1 t.2 - 1)) ∧
      (fillTimeline 5 jitterReads)[midIndex t.1 t.2 + 1]? =
        some (jitterReads (midIndex t.1 t.2 + 1)) ∧
      ∀ d m, ∃ s, innerBody (fillTimeline 5 jitterReads) t.2
        { i := t.1, last := jitterReads t.1, minDelta := d, minIndex := m } = some s ∧
        s.i = t.2) :=
  ⟨by decide, middle_index_safe 5 (by decide) jitterReads⟩

/-! ## Parity helper -/

theorem ldiff_one (m : Nat) : Nat.ldiff 1 m = if m % 2 = 1 then 0 else 1 := by
  unfold Nat.ldiff
  rw [Nat.bitwise]
  by_cases hm : m = 0
  · subst hm; simp
  · rcases Nat.mod_two_eq_zero_or_one m with h | h <;> simp [hm, h, Nat.bitwise]

theorem isEven_negSucc (m : Nat) : isEven (Int.negSucc m) = decide (m % 2 = 1) := by
  unfold isEven
  have h : Int.land (Int.negSucc m) 1 = ((Nat.ldiff 1 m : Nat) : Int) := rfl
  rw [h, ldiff_one]
  rcases Nat.mod_two_eq_zero_or_one m with h0 | h1
  · simp [h0]
  · simp [h1]

/-- C12. For every integer `n`, negative values included, `isEven(n)` is true if and only if
`n mod 2 == 0`; the remainder is zero under the flooring convention (`n % 2` in Lean) exactly
when it is under Go's truncating `%` (`Int.tmod`). -/
theorem isEven_iff_mod_two (n : Int) :
    (isEven n = true ↔ n % 2 = 0) ∧ (isEven n = true ↔ Int.tmod n 2 = 0) := by
  have key : isEven n = true ↔ n % 2 = 0 := by
    cases n with
    | ofNat m =>
      rw [show Int.ofNat m = (m : Int) from rfl, isEven_natCast]
      simp only [decide_eq_true_eq]
      omega
    | negSucc m =>
      rw [isEven_negSucc]
      simp only [decide_eq_true_eq]
      have : Int.negSucc m = -((m : Int) + 1) := rfl
      omega
  refine ⟨key, key.trans ?_⟩
  constructor
  · intro h
    exact Int.tmod_eq_zero_of_dvd (Int.dvd_of_emod_eq_zero h)
  · intro h
    exact Int.emod_eq_zero_of_dvd (Int.dvd_of_tmod_eq_zero h)

/-! ## The nested scan as one pass, and the returned counter -/

/-- C13. For every timeline the nested loops of `getClosestTSCSys` end with the
`(minDelta, minIndex)` of the one-pass scan.  The inner loop of the first outer iteration
already ends with them and leaves `i` at the start of the last run, after which all odd
slots hold the same value; the outer iterations that follow find no transition and change
nothing. -/
theorem nested_scan_eq_one_pass (n : Nat) (clk : Nat → Int) :
    outerLoop (fillTimeline n clk) (fillTimeline n clk).length 1 MaxInt64 1 =
      some (onePassScan (fillTimeline n clk)) ∧
    ∃ s1, innerLoop (fillTimeline n clk) (fillTimeline n clk).length 3
        { i := 1, last := clk 1, minDelta := MaxInt64, minIndex := 1 } = some s1 ∧
      (s1.minDelta, s1.minIndex) = onePassScan (fillTimeline n clk) ∧
      (∀ x, x % 2 = 1 → s1.i ≤ x → x < (fillTimeline n clk).length - 1 →
        clk x = clk s1.i) ∧
      outerLoop (fillTimeline n clk) ((fillTimeline n clk).length - 1) (s1.i + 2)
        s1.minDelta s1.minIndex = some (s1.minDelta, s1.minIndex) := by
  have hlen : (fillTimeline n clk).length = n + n + 1 := fillTimeline_length n clk
  by_cases hn : 1 ≤ n
  · refine ⟨outerLoop_fill n hn clk, ?_⟩
    obtain ⟨s1, h1, h2, h3, _, h5, _, h7⟩ := innerLoop_fill n clk (n - 1) 3
      { i := 1, last := clk 1, minDelta := MaxInt64, minIndex := 1 }
      (fillTimeline n clk).length (by omega) (by rw [hlen]; omega) (by simp) (by simp) rfl
      (fun x hx1 hx2 hx3 => by
        have : x = 1 := by simp only at hx1; omega
        rw [this])
    have hcand : candidates (fillTimeline n clk) =
        candidatesAux (fillTimeline n clk) 1 (List.range' 3 (n - 1) 2) := by
      unfold candidates
      rw [hlen]
      congr 2
      omega
    refine ⟨s1, h1, ?_, ?_, ?_⟩
    · unfold onePassScan
      rw [hcand]
      exact h2
    · intro x hx1 hx2 hx3
      exact h7 x hx2 (by rw [hlen] at hx3; omega) hx1
    · exact outerLoop_const n clk (clk s1.i) ((n + n + 1 - (s1.i + 2)) / 2) (s1.i + 2) _ _ _
        (by omega) (by rw [hlen]; omega) (fun x hx1 hx2 hx3 => h7 x (by omega) hx2 hx3)
  · have hn0 : n = 0 := by omega
    subst hn0
    have hone : onePassScan (fillTimeline 0 clk) = (MaxInt64, 1) := by
      simp [onePassScan, candidates, candidatesAux, fillTimeline]
    rw [hone]
    refine ⟨outerLoop_done _ _ _ _ _ (by rw [hlen]; omega), _,
      innerLoop_done _ _ _ _ (by rw [hlen]; omega), rfl, ?_,
      outerLoop_done _ _ _ _ _ (by rw [hlen]; omega)⟩
    intro x _ _ hx3
    rw [hlen] at hx3
    omega

/-- C14. For `n ≥ 1`, when the counter slots `a = timeline[m-1]` and `b = timeline[m+1]`
around the slot `m` that the scan ends with satisfy `0 ≤ a ≤ b` and `a + b < 2^63`,
`getClosestTSCSys` returns the counter `⌊(a + b) / 2⌋` (with `timeline[m]`), and it lies in
`[a, b]`.  Without the bound the sum wraps: for the readings `2^62, 7, 2^62` the returned
counter is `-2^62`, below `a`. -/
theorem returned_counter_in_bracket (n : Nat) (hn : 1 ≤ n) (clk : Nat → Int) (d : Int)
    (m : Nat)
    (hm : outerLoop (fillTimeline n clk) (fillTimeline n clk).length 1 MaxInt64 1 =
      some (d, m))
    (ha : 0 ≤ clk (m - 1)) (hab : clk (m - 1) ≤ clk (m + 1))
    (hsum : clk (m - 1) + clk (m + 1) < 9223372036854775808) :
    getClosestTSCSys n clk = some ((clk (m - 1) + clk (m + 1)) / 2, clk m) ∧
    clk (m - 1) ≤ (clk (m - 1) + clk (m + 1)) / 2 ∧
    (clk (m - 1) + clk (m + 1)) / 2 ≤ clk (m + 1) ∧
    (0 ≤ wrapReads 0 ∧ wrapReads 0 ≤ wrapReads 2 ∧
      ¬ wrapReads 0 + wrapReads 2 < 9223372036854775808 ∧
      getClosestTSCSys 1 wrapReads = some (-4611686018427387904, 7) ∧
      (-4611686018427387904 : Int) < wrapReads 0) := by
  obtain ⟨m0, hm0, _, _, hres⟩ := getClosestTSCSys_eq n hn clk
  have hidx : m0 = m := by
    rw [outerLoop_fill n hn clk] at hm
    rw [← hm0, Option.some.inj hm]
  subst hidx
  have hwrap : wrap64 (clk (m0 + 1) + clk (m0 - 1)) = clk (m0 - 1) + clk (m0 + 1) := by
    rw [add_comm]
    exact wrap64_of_range _ (by omega) hsum
  refine ⟨?_, by omega, by omega, by decide⟩
  rw [hres, hwrap, Int.shiftRight_eq_div_pow]
  rfl

theorem returned_counter_in_bracket_witness :
    1 ≤ 5 ∧
    outerLoop (fillTimeline 5 jitterReads) (fillTimeline 5 jitterReads).length 1 MaxInt64 1 =
      some (4, 7) ∧
    0 ≤ jitterReads (7 - 1) ∧ jitterReads (7 - 1) ≤ jitterReads (7 + 1) ∧
    jitterReads (7 - 1) + jitterReads (7 + 1) < 9223372036854775808 ∧
    (getClosestTSCSys 5 jitterReads =
      some ((jitterReads (7 - 1) + jitterReads (7 + 1)) / 2, jitterReads 7) ∧
    jitterReads (7 - 1) ≤ (jitterReads (7 - 1) + jitterReads (7 + 1)) / 2 ∧
    (jitterReads (7 - 1) + jitterReads (7 + 1)) / 2 ≤ jitterReads (7 + 1) ∧
    (0 ≤ wrapReads 0 ∧ wrapReads 0 ≤ wrapReads 2 ∧
      ¬ wrapReads 0 + wrapReads 2 < 9223372036854775808 ∧
      getClosestTSCSys 1 wrapReads = some (-4611686018427387904, 7) ∧
      (-4611686018427387904 : Int) < wrapReads 0)) :=
  ⟨by decide, by decide, by decide, by decide, by decide,
    returned_counter_in_bracket 5 (by decide) jitterReads 4 7 (by decide) (by decide)
      (by decide) (by decide)⟩

end Tsc
